import Mathlib

/-!
Verification of the `do-function-pipe-with-kb-images.py` pipe (and the shared
`_invoke_function` tail of `do-function-pipe.py`) from the
open-webui-infrastructure repository.

Python strings are modelled as `List Char`.  Library calls that are external
to the repository (the `re` module's `findall`, `json.loads`, and the boto3
presigner) are modelled as explicit oracle parameters: `findM`/`findE` stand
for the two `findall` scans of `_extract_image_urls`, `parse` stands for
`json.loads` (returning `none` when the parser raises), and `sign` stands for
`_generate_presigned_url`'s boto3 call (returning `none` when any exception is
caught, exactly as the source's `except` arms do).  Everything the repository
itself computes is translated function-by-function from the source.
-/

namespace Pipe

/-- Python strings are lists of characters. -/
abbrev Str := List Char

/-! ## Basic Python string primitives -/

/-- Python `pat in s` (substring containment, `str.__contains__`). -/
def hasSub (pat : Str) : Str → Bool
  | [] => pat.isEmpty
  | c :: r => pat.isPrefixOf (c :: r) || hasSub pat r

/-- Fuel-driven worker for Python `str.replace` (all non-overlapping
occurrences, scanned left to right).  Fuel is the length of the text, so the
fuel branch is never reached by `replaceAll`. -/
def replF (u p : Str) : Nat → Str → Str
  | 0, t => t
  | _ + 1, [] => []
  | f + 1, c :: r =>
    if u ≠ [] ∧ u.isPrefixOf (c :: r) then p ++ replF u p f ((c :: r).drop u.length)
    else c :: replF u p f r

/-- Python `t.replace(u, p)` for non-empty `u` (every `u` handled by the pipe
is a regex match of a non-empty pattern, so Python's empty-needle behaviour is
irrelevant and the `u ≠ []` guard makes the function total and faithful). -/
def replaceAll (u p t : Str) : Str := replF u p t.length t

/-- Fuel-driven worker counting the non-overlapping left-to-right occurrences
that Python `str.replace` rewrites. -/
def countF (u : Str) : Nat → Str → Nat
  | 0, _ => 0
  | _ + 1, [] => 0
  | f + 1, c :: r =>
    if u ≠ [] ∧ u.isPrefixOf (c :: r) then 1 + countF u f ((c :: r).drop u.length)
    else countF u f r

/-- Number of non-overlapping occurrences of `u` in `t` (the occurrences that
Python `t.replace(u, _)` rewrites). -/
def countOcc (u t : Str) : Nat := countF u t.length t

/-- Python whitespace test used by `str.strip` / `\s`. -/
def isSpaceC (c : Char) : Bool := c = ' ' || c = '\t' || c = '\n' || c = '\r' || c = '\x0b' || c = '\x0c'

/-- Python `str.strip()` (default whitespace strip on both sides). -/
def pyStrip (l : Str) : Str :=
  ((l.dropWhile isSpaceC).reverse.dropWhile isSpaceC).reverse

/-- Index of the first occurrence of a character, Python `str.find` (as an
option instead of `-1`). -/
def idxFirst (ch : Char) : Str → Option Nat
  | [] => none
  | c :: r => if c = ch then some 0 else (idxFirst ch r).map (· + 1)

/-- Index of the last occurrence of a character, Python `str.rfind` (as an
option instead of `-1`). -/
def idxLast (ch : Char) (l : Str) : Option Nat :=
  (idxFirst ch l.reverse).map (fun i => l.length - 1 - i)

/-! ## Equation lemmas discharging the fuel -/

theorem replF_fuel2 {u p : Str} : ∀ {f g : Nat} {t : Str}, t.length ≤ f → t.length ≤ g →
    replF u p f t = replF u p g t := by
  intro f
  induction f with
  | zero =>
    intro g t ht _
    have : t = [] := List.length_eq_zero.mp (Nat.le_zero.mp ht)
    subst this
    cases g <;> rfl
  | succ f ih =>
    intro g t ht hg
    match t with
    | [] => cases g <;> rfl
    | c :: r =>
      simp only [List.length_cons] at ht hg
      match g with
      | 0 => omega
      | g + 1 =>
        simp only [replF]
        by_cases h : u ≠ [] ∧ u.isPrefixOf (c :: r)
        · simp only [if_pos h]
          have hu : 1 ≤ u.length := by
            cases u with
            | nil => exact absurd rfl h.1
            | cons a s => simp
          have hd : ((c :: r).drop u.length).length = r.length + 1 - u.length := by
            simp only [List.length_drop, List.length_cons]
          have e := @ih g ((c :: r).drop u.length) (by rw [hd]; omega) (by rw [hd]; omega)
          rw [e]
        · simp only [if_neg h]
          have e := @ih g r (by omega) (by omega)
          rw [e]

theorem replF_fuel {u p : Str} {f : Nat} {t : Str} (h : t.length ≤ f) :
    replF u p f t = replF u p t.length t :=
  replF_fuel2 h (le_refl _)

theorem countF_fuel2 {u : Str} : ∀ {f g : Nat} {t : Str}, t.length ≤ f → t.length ≤ g →
    countF u f t = countF u g t := by
  intro f
  induction f with
  | zero =>
    intro g t ht _
    have : t = [] := List.length_eq_zero.mp (Nat.le_zero.mp ht)
    subst this
    cases g <;> rfl
  | succ f ih =>
    intro g t ht hg
    match t with
    | [] => cases g <;> rfl
    | c :: r =>
      simp only [List.length_cons] at ht hg
      match g with
      | 0 => omega
      | g + 1 =>
        simp only [countF]
        by_cases h : u ≠ [] ∧ u.isPrefixOf (c :: r)
        · simp only [if_pos h]
          have hu : 1 ≤ u.length := by
            cases u with
            | nil => exact absurd rfl h.1
            | cons a s => simp
          have hd : ((c :: r).drop u.length).length = r.length + 1 - u.length := by
            simp only [List.length_drop, List.length_cons]
          have e := @ih g ((c :: r).drop u.length) (by rw [hd]; omega) (by rw [hd]; omega)
          rw [e]
        · simp only [if_neg h]
          have e := @ih g r (by omega) (by omega)
          rw [e]

theorem countF_fuel {u : Str} {f : Nat} {t : Str} (h : t.length ≤ f) :
    countF u f t = countF u t.length t :=
  countF_fuel2 h (le_refl _)

theorem replaceAll_nil (u p : Str) : replaceAll u p [] = [] := rfl

theorem replaceAll_cons (u p : Str) (c : Char) (r : Str) :
    replaceAll u p (c :: r) =
      if u ≠ [] ∧ u.isPrefixOf (c :: r) then p ++ replaceAll u p ((c :: r).drop u.length)
      else c :: replaceAll u p r := by
  show replF u p (c :: r).length (c :: r) = _
  simp only [List.length_cons, replF]
  by_cases h : u ≠ [] ∧ u.isPrefixOf (c :: r)
  · simp only [if_pos h]
    have hu : 1 ≤ u.length := by
      cases u with
      | nil => exact absurd rfl h.1
      | cons a s => simp
    have : ((c :: r).drop u.length).length ≤ r.length := by
      simp only [List.length_drop, List.length_cons]
      omega
    rw [replF_fuel this]
    rfl
  · simp only [if_neg h]
    rw [replF_fuel (le_refl r.length)]
    rfl

theorem countOcc_nil (u : Str) : countOcc u [] = 0 := rfl

theorem countOcc_cons (u : Str) (c : Char) (r : Str) :
    countOcc u (c :: r) =
      if u ≠ [] ∧ u.isPrefixOf (c :: r) then 1 + countOcc u ((c :: r).drop u.length)
      else countOcc u r := by
  show countF u (c :: r).length (c :: r) = _
  simp only [List.length_cons, countF]
  by_cases h : u ≠ [] ∧ u.isPrefixOf (c :: r)
  · simp only [if_pos h]
    have hu : 1 ≤ u.length := by
      cases u with
      | nil => exact absurd rfl h.1
      | cons a s => simp
    have : ((c :: r).drop u.length).length ≤ r.length := by
      simp only [List.length_drop, List.length_cons]
      omega
    rw [countF_fuel this]
    rfl
  · simp only [if_neg h]
    rw [countF_fuel (le_refl r.length)]
    rfl

/-! ## Substring (infix) toolbox -/

theorem isPrefixOf_eq_true {u t : Str} : u.isPrefixOf t = true ↔ u <+: t := by
  exact List.isPrefixOf_iff_prefix

/-- A nonempty prefix of a list determines the head. -/
theorem head_of_pref {u v : Str} (h : u <+: v) (hne : u ≠ []) : v.head? = u.head? := by
  obtain ⟨t, rfl⟩ := h
  cases u with
  | nil => exact absurd rfl hne
  | cons a s => rfl

/-- A nonempty suffix of a list determines the last element. -/
theorem last_of_suff {u v : Str} (h : u <:+ v) (hne : u ≠ []) : v.getLast? = u.getLast? := by
  obtain ⟨t, rfl⟩ := h
  rw [List.getLast?_append, List.getLast?_eq_getLast u hne]
  rfl

/-- Splitting a prefix of an append. -/
theorem prefSplit : ∀ {x : Str} {u y : Str}, u <+: x ++ y →
    u <+: x ∨ ∃ w, u = x ++ w ∧ w <+: y := by
  intro x
  induction x with
  | nil =>
    intro u y h
    exact Or.inr ⟨u, rfl, h⟩
  | cons b x ih =>
    intro u y h
    match u with
    | [] => exact Or.inl ⟨b :: x, rfl⟩
    | c :: u0 =>
      rw [List.cons_append, List.cons_prefix_cons] at h
      obtain ⟨rfl, h0⟩ := h
      rcases ih h0 with h1 | ⟨w, rfl, hw⟩
      · exact Or.inl (List.cons_prefix_cons.mpr ⟨rfl, h1⟩)
      · exact Or.inr ⟨w, rfl, hw⟩

/-- Splitting an occurrence inside an append: the occurrence lies in the left
part, lies in the right part, or straddles the boundary. -/
theorem infixSplit : ∀ {x : Str} {u y : Str}, u <:+: x ++ y →
    u <:+: x ∨ u <:+: y ∨
      ∃ u1 u2, u = u1 ++ u2 ∧ u1 ≠ [] ∧ u2 ≠ [] ∧ u1 <:+ x ∧ u2 <+: y := by
  intro x
  induction x with
  | nil =>
    intro u y h
    exact Or.inr (Or.inl h)
  | cons a x ih =>
    intro u y h
    rw [List.cons_append] at h
    rcases List.infix_cons_iff.mp h with hpre | hin
    · match u with
      | [] => exact Or.inl ⟨[], a :: x, rfl⟩
      | c :: u0 =>
        rw [List.cons_prefix_cons] at hpre
        obtain ⟨rfl, h0⟩ := hpre
        rcases prefSplit h0 with h1 | ⟨w, rfl, hw⟩
        · exact Or.inl (List.cons_prefix_cons.mpr ⟨rfl, h1⟩).isInfix
        · match w with
          | [] =>
            refine Or.inl ?_
            have : c :: (x ++ []) = c :: x := by simp
            rw [this]
          | d :: w0 =>
            refine Or.inr (Or.inr ⟨c :: x, d :: w0, rfl, by simp, by simp, ?_, hw⟩)
            exact List.suffix_refl (c :: x)
    · rcases ih hin with h1 | h2 | ⟨u1, u2, rfl, h1ne, h2ne, hs, hp⟩
      · exact Or.inl (h1.trans (List.suffix_cons a x).isInfix)
      · exact Or.inr (Or.inl h2)
      · exact Or.inr (Or.inr ⟨u1, u2, rfl, h1ne, h2ne, hs.trans (List.suffix_cons a x), hp⟩)

/-- A string containing a character absent from `x` is not a substring of `x`. -/
theorem not_infix_of_mem {u x : Str} {c : Char} (hc : c ∈ u) (hx : c ∉ x) : ¬ u <:+: x :=
  fun h => hx (h.sublist.subset hc)

/-- If no character of `u` occurs in `x`, an occurrence of `u` in `x ++ y` lies in `y`. -/
theorem infix_append_elim_left {u x y : Str} (h : u <:+: x ++ y)
    (hno : ∀ c ∈ u, c ∉ x) (hu : u ≠ []) : u <:+: y := by
  rcases infixSplit h with h1 | h2 | ⟨u1, u2, rfl, h1ne, _, hs, _⟩
  · obtain ⟨c, u0, rfl⟩ : ∃ c u0, u = c :: u0 := by
      cases u with
      | nil => exact absurd rfl hu
      | cons c u0 => exact ⟨c, u0, rfl⟩
    have hmem : c ∈ x := h1.sublist.subset (List.mem_cons_self c u0)
    exact absurd hmem (hno c (List.mem_cons_self c u0))
  · exact h2
  · obtain ⟨c, u0, rfl⟩ : ∃ c u0, u1 = c :: u0 := by
      cases u1 with
      | nil => exact absurd rfl h1ne
      | cons c u0 => exact ⟨c, u0, rfl⟩
    exact absurd (hs.sublist.subset (by simp)) (hno c (by simp))

/-- If no character of `u` occurs in `y`, an occurrence of `u` in `x ++ y` lies in `x`. -/
theorem infix_append_elim_right {u x y : Str} (h : u <:+: x ++ y)
    (hno : ∀ c ∈ u, c ∉ y) (hu : u ≠ []) : u <:+: x := by
  rcases infixSplit h with h1 | h2 | ⟨u1, u2, rfl, _, h2ne, _, hp⟩
  · exact h1
  · obtain ⟨c, u0, rfl⟩ : ∃ c u0, u = c :: u0 := by
      cases u with
      | nil => exact absurd rfl hu
      | cons c u0 => exact ⟨c, u0, rfl⟩
    have hmem : c ∈ y := h2.sublist.subset (List.mem_cons_self c u0)
    exact absurd hmem (hno c (List.mem_cons_self c u0))
  · obtain ⟨c, u0, rfl⟩ : ∃ c u0, u2 = c :: u0 := by
      cases u2 with
      | nil => exact absurd rfl h2ne
      | cons c u0 => exact ⟨c, u0, rfl⟩
    exact absurd (hp.sublist.subset (by simp)) (hno c (by simp [List.mem_append]))

/-- No occurrence of `u` in `x ++ y` when `u` occurs in neither part and the
first character of `y` does not occur in `u` (so nothing can straddle). -/
theorem noInfix_append_head {u x y : Str} (h1 : ¬ u <:+: x) (h2 : ¬ u <:+: y)
    (hy : ∀ c, y.head? = some c → c ∉ u) : ¬ u <:+: x ++ y := by
  intro h
  rcases infixSplit h with hl | hr | ⟨u1, u2, rfl, _, h2ne, _, hp⟩
  · exact h1 hl
  · exact h2 hr
  · obtain ⟨c, u0, rfl⟩ : ∃ c u0, u2 = c :: u0 := by
      cases u2 with
      | nil => exact absurd rfl h2ne
      | cons c u0 => exact ⟨c, u0, rfl⟩
    have hh := head_of_pref hp (by simp)
    exact hy c (by rw [hh]; rfl) (by simp)

/-- No occurrence of `u` in `x ++ y` when `u` occurs in neither part and the
last character of `x` does not occur in `u` (so nothing can straddle). -/
theorem noInfix_append_last {u x y : Str} (h1 : ¬ u <:+: x) (h2 : ¬ u <:+: y)
    (hx : ∀ c, x.getLast? = some c → c ∉ u) : ¬ u <:+: x ++ y := by
  intro h
  rcases infixSplit h with hl | hr | ⟨u1, u2, rfl, h1ne, _, hs, _⟩
  · exact h1 hl
  · exact h2 hr
  · have hh := last_of_suff hs h1ne
    have hex : ∃ c, u1.getLast? = some c ∧ c ∈ u1 := by
      refine ⟨u1.getLast h1ne, List.getLast?_eq_getLast u1 h1ne, List.getLast_mem h1ne⟩
    obtain ⟨c, hc1, hc2⟩ := hex
    exact hx c (by rw [hh]; exact hc1) (by simp [hc2])

/-! ## Occurrence counting versus replacement -/

theorem countOcc_eq_zero_iff {u : Str} (hu : u ≠ []) :
    ∀ {t : Str}, countOcc u t = 0 ↔ ¬ u <:+: t := by
  intro t
  induction t with
  | nil =>
    simp [countOcc_nil, List.infix_nil, hu]
  | cons c r ih =>
    rw [countOcc_cons]
    by_cases h : u ≠ [] ∧ u.isPrefixOf (c :: r)
    · simp only [if_pos h]
      constructor
      · intro habs
        omega
      · intro hni
        exact absurd (isPrefixOf_eq_true.mp h.2).isInfix hni
    · simp only [if_neg h]
      rw [ih]
      constructor
      · intro hni hin
        rcases List.infix_cons_iff.mp hin with hp | hi
        · exact h ⟨hu, isPrefixOf_eq_true.mpr hp⟩
        · exact hni hi
      · intro hni hin
        exact hni (List.infix_cons_iff.mpr (Or.inr hin))

theorem replaceAll_of_not_infix {u p : Str} :
    ∀ {t : Str}, ¬ u <:+: t → replaceAll u p t = t := by
  intro t
  induction t with
  | nil => intro _; rfl
  | cons c r ih =>
    intro h
    rw [replaceAll_cons]
    have hg : ¬ (u ≠ [] ∧ u.isPrefixOf (c :: r)) := by
      rintro ⟨h1, h2⟩
      exact h (isPrefixOf_eq_true.mp h2).isInfix
    rw [if_neg hg]
    have : ¬ u <:+: r := fun hi => h (List.infix_cons_iff.mpr (Or.inr hi))
    rw [ih this]

/-- A prefix of the output of `replaceAll` that avoids the head character of
the replacement `p` is a prefix of the input. -/
theorem pref_of_pref_replaceAll {u p : Str} (hp : p ≠ []) {a : Char}
    (ha : p.head? = some a) :
    ∀ {r v : Str}, v <+: replaceAll u p r → a ∉ v → v <+: r := by
  intro r
  induction r with
  | nil =>
    intro v h _
    rw [replaceAll_nil] at h
    obtain ⟨t, ht⟩ := h
    have : v = [] := by
      cases v with
      | nil => rfl
      | cons c w => simp at ht
    subst this
    exact List.nil_prefix
  | cons c r0 ih =>
    intro v h hav
    rw [replaceAll_cons] at h
    by_cases hg : u ≠ [] ∧ u.isPrefixOf (c :: r0)
    · rw [if_pos hg] at h
      match v with
      | [] => exact List.nil_prefix
      | d :: v0 =>
        have hh := head_of_pref h (by simp)
        have : (p ++ replaceAll u p ((c :: r0).drop u.length)).head? = p.head? := by
          cases p with
          | nil => exact absurd rfl hp
          | cons e q => rfl
        rw [this, ha] at hh
        have hda : d = a := by
          simp only [List.head?_cons] at hh
          exact (Option.some_inj.mp hh).symm
        refine absurd ?_ hav
        rw [← hda]
        exact List.mem_cons_self d v0
    · rw [if_neg hg] at h
      match v with
      | [] => exact List.nil_prefix
      | d :: v0 =>
        rw [List.cons_prefix_cons] at h
        obtain ⟨rfl, h0⟩ := h
        have hav0 : a ∉ v0 := fun hm => hav (List.mem_cons_of_mem d hm)
        exact List.cons_prefix_cons.mpr ⟨rfl, ih h0 hav0⟩

/-- Replacing every occurrence of `u` by `p` leaves no occurrence of `u`,
provided the head of `p` does not occur in `u` and the head of `u` does not
occur in `p` (so no occurrence can be recreated across the substituted
blocks).  The pipe's URLs and its fixed placeholder satisfy both. -/
theorem not_infix_replaceAll {u p : Str} (hu : u ≠ []) (hp : p ≠ [])
    (hpu : ∀ a, p.head? = some a → a ∉ u) (hup : ∀ c, u.head? = some c → c ∉ p) :
    ∀ {n : Nat} {t : Str}, t.length ≤ n → ¬ u <:+: replaceAll u p t := by
  intro n
  induction n with
  | zero =>
    intro t ht
    have : t = [] := List.length_eq_zero.mp (Nat.le_zero.mp ht)
    subst this
    rw [replaceAll_nil]
    intro h
    exact hu (List.infix_nil.mp h)
  | succ n ih =>
    intro t ht
    obtain ⟨cu, u0, rfl⟩ : ∃ cu u0, u = cu :: u0 := by
      cases u with
      | nil => exact absurd rfl hu
      | cons cu u0 => exact ⟨cu, u0, rfl⟩
    match t with
    | [] =>
      rw [replaceAll_nil]
      intro h
      exact hu (List.infix_nil.mp h)
    | c :: r =>
      simp only [List.length_cons] at ht
      rw [replaceAll_cons]
      by_cases hg : (cu :: u0 : Str) ≠ [] ∧ (cu :: u0 : Str).isPrefixOf (c :: r)
      · rw [if_pos hg]
        intro h
        rcases infixSplit h with hl | hr | ⟨u1, u2, he, h1ne, _, hs, _⟩
        · have : cu ∈ p := hl.sublist.subset (List.mem_cons_self cu u0)
          exact hup cu rfl this
        · have hd : ((c :: r).drop (cu :: u0 : Str).length).length ≤ n := by
            simp only [List.length_drop, List.length_cons]
            omega
          exact ih hd hr
        · obtain ⟨d, u1', rfl⟩ : ∃ d u1', u1 = d :: u1' := by
            cases u1 with
            | nil => exact absurd rfl h1ne
            | cons d u1' => exact ⟨d, u1', rfl⟩
          have hd : d = cu := by
            have := congrArg List.head? he
            simpa using this.symm
          subst hd
          have : d ∈ p := hs.sublist.subset (List.mem_cons_self d u1')
          exact hup d rfl this
      · rw [if_neg hg]
        intro h
        rcases List.infix_cons_iff.mp h with hpre | hin
        · match hpre with
          | h' =>
            rw [List.cons_prefix_cons] at h'
            obtain ⟨rfl, h0⟩ := h'
            obtain ⟨a, ha⟩ : ∃ a, p.head? = some a := by
              cases p with
              | nil => exact absurd rfl hp
              | cons a q => exact ⟨a, rfl⟩
            have hau0 : a ∉ u0 := fun hm => hpu a ha (List.mem_cons_of_mem _ hm)
            have h0r : u0 <+: r := pref_of_pref_replaceAll hp ha h0 hau0
            have : (cu :: u0 : Str).isPrefixOf (cu :: r) :=
              isPrefixOf_eq_true.mpr (List.cons_prefix_cons.mpr ⟨rfl, h0r⟩)
            exact hg ⟨by simp, this⟩
        · exact ih (by omega) hin

/-- Replacing occurrences of any needle `w` by the placeholder `p` cannot
introduce an occurrence of `u` when none was present, under the same
non-interference conditions on `u` and `p`. -/
theorem not_infix_replaceAll_other {u w p : Str} (hu : u ≠ []) (hp : p ≠ [])
    (hpu : ∀ a, p.head? = some a → a ∉ u) (hup : ∀ c, u.head? = some c → c ∉ p) :
    ∀ {n : Nat} {t : Str}, t.length ≤ n → ¬ u <:+: t → ¬ u <:+: replaceAll w p t := by
  intro n
  induction n with
  | zero =>
    intro t ht _
    have : t = [] := List.length_eq_zero.mp (Nat.le_zero.mp ht)
    subst this
    rw [replaceAll_nil]
    intro h
    exact hu (List.infix_nil.mp h)
  | succ n ih =>
    intro t ht hnt
    obtain ⟨cu, u0, rfl⟩ : ∃ cu u0, u = cu :: u0 := by
      cases u with
      | nil => exact absurd rfl hu
      | cons cu u0 => exact ⟨cu, u0, rfl⟩
    match t with
    | [] =>
      rw [replaceAll_nil]
      intro h
      exact hu (List.infix_nil.mp h)
    | c :: r =>
      simp only [List.length_cons] at ht
      rw [replaceAll_cons]
      by_cases hg : w ≠ [] ∧ w.isPrefixOf (c :: r)
      · rw [if_pos hg]
        intro h
        rcases infixSplit h with hl | hr | ⟨u1, u2, he, h1ne, _, hs, _⟩
        · have : cu ∈ p := hl.sublist.subset (List.mem_cons_self cu u0)
          exact hup cu rfl this
        · have hw1 : 1 ≤ w.length := by
            cases w with
            | nil => exact absurd rfl hg.1
            | cons a s => simp
          have hd : ((c :: r).drop w.length).length ≤ n := by
            simp only [List.length_drop, List.length_cons]
            omega
          have hsuf : (c :: r).drop w.length <:+ c :: r := List.drop_suffix _ _
          have hnd : ¬ (cu :: u0 : Str) <:+: (c :: r).drop w.length :=
            fun hx => hnt (hx.trans hsuf.isInfix)
          exact ih hd hnd hr
        · obtain ⟨d, u1', rfl⟩ : ∃ d u1', u1 = d :: u1' := by
            cases u1 with
            | nil => exact absurd rfl h1ne
            | cons d u1' => exact ⟨d, u1', rfl⟩
          have hd : d = cu := by
            have := congrArg List.head? he
            simpa using this.symm
          subst hd
          have : d ∈ p := hs.sublist.subset (List.mem_cons_self d u1')
          exact hup d rfl this
      · rw [if_neg hg]
        intro h
        rcases List.infix_cons_iff.mp h with hpre | hin
        · rw [List.cons_prefix_cons] at hpre
          obtain ⟨rfl, h0⟩ := hpre
          obtain ⟨a, ha⟩ : ∃ a, p.head? = some a := by
            cases p with
            | nil => exact absurd rfl hp
            | cons a q => exact ⟨a, rfl⟩
          have hau0 : a ∉ u0 := fun hm => hpu a ha (List.mem_cons_of_mem _ hm)
          have h0r : u0 <+: r := pref_of_pref_replaceAll hp ha h0 hau0
          exact hnt (List.cons_prefix_cons.mpr ⟨rfl, h0r⟩).isInfix
        · have hnr : ¬ (cu :: u0 : Str) <:+: r :=
            fun hx => hnt (List.infix_cons_iff.mpr (Or.inr hx))
          exact ih (by omega) hnr hin

/-- A text with a single occurrence of `u` splits as `a ++ u ++ b`, and
`replaceAll` rewrites exactly that occurrence. -/
theorem replaceAll_single {u p : Str} (hu : u ≠ []) :
    ∀ {t : Str}, countOcc u t = 1 →
      ∃ a b, t = a ++ u ++ b ∧ countOcc u b = 0 ∧ replaceAll u p t = a ++ p ++ b := by
  intro t
  induction t with
  | nil =>
    intro h
    rw [countOcc_nil] at h
    omega
  | cons c r ih =>
    intro h
    rw [countOcc_cons] at h
    by_cases hg : u ≠ [] ∧ u.isPrefixOf (c :: r)
    · rw [if_pos hg] at h
      have hb : countOcc u ((c :: r).drop u.length) = 0 := by omega
      have hsp : u <+: c :: r := isPrefixOf_eq_true.mp hg.2
      obtain ⟨b, hbe⟩ := hsp
      have hdrop : (c :: r).drop u.length = b := by
        rw [← hbe]
        exact List.drop_left u b
      have hbz : countOcc u b = 0 := by rw [← hdrop]; exact hb
      have hnb : ¬ u <:+: b := (countOcc_eq_zero_iff hu).mp hbz
      refine ⟨[], b, ?_, hbz, ?_⟩
      · rw [← hbe]
        simp
      · rw [replaceAll_cons, if_pos hg, hdrop, replaceAll_of_not_infix hnb]
        simp
    · rw [if_neg hg] at h
      obtain ⟨a, b, he, hb, hr⟩ := ih h
      refine ⟨c :: a, b, ?_, hb, ?_⟩
      · rw [he]
        simp
      · rw [replaceAll_cons, if_neg hg, hr]
        simp

/-- Fuel-free wrapper for `not_infix_replaceAll`. -/
theorem replaceAll_no_needle {u p t : Str} (hu : u ≠ []) (hp : p ≠ [])
    (hpu : ∀ a, p.head? = some a → a ∉ u) (hup : ∀ c, u.head? = some c → c ∉ p) :
    ¬ u <:+: replaceAll u p t :=
  not_infix_replaceAll hu hp hpu hup (le_refl t.length)

/-- Fuel-free wrapper for `not_infix_replaceAll_other`. -/
theorem replaceAll_preserves_no_needle {u w p t : Str} (hu : u ≠ []) (hp : p ≠ [])
    (hpu : ∀ a, p.head? = some a → a ∉ u) (hup : ∀ c, u.head? = some c → c ∉ p)
    (hnt : ¬ u <:+: t) : ¬ u <:+: replaceAll w p t :=
  not_infix_replaceAll_other hu hp hpu hup (le_refl t.length) hnt

/-- `p` has no non-trivial border: no strict non-empty prefix of `p` is also a
suffix of `p`.  Decidable, and true of the pipe's placeholder string. -/
def borderFree (p : Str) : Prop :=
  ∀ n, n < p.length → 0 < n → ¬ (p.take n) <:+ p

instance (p : Str) : Decidable (borderFree p) :=
  inferInstanceAs (Decidable (∀ n, n < p.length → 0 < n → ¬ (p.take n) <:+ p))

/-- Counting `p` in `a ++ p ++ b` when neither flank contains `p` and `p` has
no non-trivial border: exactly the planted occurrence is found. -/
theorem countOcc_sandwich {p : Str} (hp : p ≠ []) (hbf : borderFree p) :
    ∀ {a b : Str}, ¬ p <:+: a → ¬ p <:+: b → countOcc p (a ++ p ++ b) = 1 := by
  intro a
  induction a with
  | nil =>
    intro b _ hb
    have heq : ([] : Str) ++ p ++ b = p ++ b := by simp
    rw [heq]
    cases p with
    | nil => exact absurd rfl hp
    | cons cp q =>
      have hca : (cp :: q : Str) ++ b = cp :: (q ++ b) := rfl
      rw [hca, countOcc_cons]
      have hg2 : (cp :: q : Str) ≠ [] ∧ (cp :: q : Str).isPrefixOf (cp :: (q ++ b)) := by
        refine ⟨by simp, isPrefixOf_eq_true.mpr ?_⟩
        exact List.cons_prefix_cons.mpr ⟨rfl, ⟨b, rfl⟩⟩
      rw [if_pos hg2]
      have hdrop : (cp :: (q ++ b)).drop (cp :: q : Str).length = b := by
        rw [← hca]
        exact List.drop_left _ _
      rw [hdrop, (countOcc_eq_zero_iff (by simp)).mpr hb]
  | cons c a0 ih =>
    intro b ha hb
    have hna0 : ¬ p <:+: a0 := fun hx => ha (List.infix_cons_iff.mpr (Or.inr hx))
    have heq : (c :: a0) ++ p ++ b = c :: (a0 ++ p ++ b) := by simp
    rw [heq, countOcc_cons]
    have hg : ¬ (p ≠ [] ∧ p.isPrefixOf (c :: (a0 ++ p ++ b))) := by
      rintro ⟨-, hpref⟩
      have hpp : p <+: (c :: a0) ++ (p ++ b) := by
        have : (c :: a0) ++ (p ++ b) = c :: (a0 ++ p ++ b) := by simp
        rw [this]
        exact isPrefixOf_eq_true.mp hpref
      rcases prefSplit hpp with hl | ⟨w, hwe, hw⟩
      · exact ha hl.isInfix
      · rcases prefSplit hw with hl2 | ⟨w2, hwe2, _⟩
        · -- w is a prefix of p and also a suffix of p (p = (c :: a0) ++ w)
          match w with
          | [] =>
            have : p = c :: a0 := by simpa using hwe
            exact ha (this ▸ List.infix_refl p)
          | d :: w0 =>
            have hsuf : (d :: w0 : Str) <:+ p := ⟨c :: a0, hwe.symm⟩
            have hlen : (d :: w0 : Str).length < p.length := by
              have := congrArg List.length hwe
              simp only [List.length_append, List.length_cons] at this ⊢
              omega
            have htake : (d :: w0 : Str) = p.take (d :: w0 : Str).length :=
              List.prefix_iff_eq_take.mp hl2
            exact hbf _ hlen (by simp) (htake ▸ hsuf)
        · -- p would be a strict prefix of w, impossible by lengths
          have h1 := congrArg List.length hwe
          have h2 := congrArg List.length hwe2
          simp only [List.length_append, List.length_cons] at h1 h2
          omega
    rw [if_neg hg]
    exact ih hna0 hb

/-- Appending a block that starts with a character not occurring in `p` and
contains no occurrence of `p` does not change the count of `p`. -/
theorem countOcc_append_sep {p : Str} (hp : p ≠ []) :
    ∀ {n : Nat} {x : Str} {c0 : Char} {y : Str}, x.length ≤ n → c0 ∉ p → ¬ p <:+: (c0 :: y) →
      countOcc p (x ++ c0 :: y) = countOcc p x := by
  intro n
  induction n with
  | zero =>
    intro x c0 y hx hc0 hy
    have : x = [] := List.length_eq_zero.mp (Nat.le_zero.mp hx)
    subst this
    simp only [List.nil_append, countOcc_nil]
    exact (countOcc_eq_zero_iff hp).mpr hy
  | succ n ih =>
    intro x c0 y hx hc0 hy
    match x with
    | [] =>
      simp only [List.nil_append, countOcc_nil]
      exact (countOcc_eq_zero_iff hp).mpr hy
    | c :: x0 =>
      simp only [List.length_cons] at hx
      rw [List.cons_append, countOcc_cons, countOcc_cons]
      by_cases hg : p ≠ [] ∧ p.isPrefixOf (c :: x0)
      · -- p is a prefix of x as well; the two scans advance identically
        have hg2 : p ≠ [] ∧ p.isPrefixOf (c :: (x0 ++ c0 :: y)) := by
          refine ⟨hp, isPrefixOf_eq_true.mpr ?_⟩
          have h1 : p <+: c :: x0 := isPrefixOf_eq_true.mp hg.2
          have : c :: (x0 ++ c0 :: y) = (c :: x0) ++ c0 :: y := rfl
          rw [this]
          exact h1.trans (List.prefix_append _ _)
        rw [if_pos hg2, if_pos hg]
        have hple : p.length ≤ (c :: x0 : Str).length := (isPrefixOf_eq_true.mp hg.2).length_le
        have hdo : (c :: (x0 ++ c0 :: y)).drop p.length = (c :: x0).drop p.length ++ c0 :: y := by
          have : c :: (x0 ++ c0 :: y) = (c :: x0) ++ c0 :: y := rfl
          rw [this]
          exact List.drop_append_of_le_length hple
      
        rw [hdo]
        have hdl : ((c :: x0).drop p.length).length ≤ n := by
          have hp1 : 1 ≤ p.length := by
            cases p with
            | nil => exact absurd rfl hp
            | cons a q => simp
          simp only [List.length_drop, List.length_cons]
          omega
        rw [ih hdl hc0 hy]
      · have hg2 : ¬ (p ≠ [] ∧ p.isPrefixOf (c :: (x0 ++ c0 :: y))) := by
          rintro ⟨-, hpref⟩
          have hpp : p <+: (c :: x0) ++ (c0 :: y) := isPrefixOf_eq_true.mp hpref
          rcases prefSplit hpp with hl | ⟨w, hwe, hw⟩
          · exact hg ⟨hp, isPrefixOf_eq_true.mpr hl⟩
          · match w with
            | [] =>
              have : p = c :: x0 := by simpa using hwe
              exact hg ⟨hp, isPrefixOf_eq_true.mpr (by rw [this])⟩
            | d :: w0 =>
              have hd : d = c0 := by
                have := head_of_pref hw (by simp)
                simpa using this.symm
              subst hd
              have : d ∈ p := by
                rw [hwe]
                simp
              exact hc0 this
        rw [if_neg hg2, if_neg hg]
        exact ih (by omega) hc0 hy

/-- Fuel-free wrapper for `countOcc_append_sep`. -/
theorem countOcc_append_block {p x : Str} {c0 : Char} {y : Str} (hp : p ≠ [])
    (hc0 : c0 ∉ p) (hy : ¬ p <:+: (c0 :: y)) :
    countOcc p (x ++ c0 :: y) = countOcc p x :=
  countOcc_append_sep hp (le_refl x.length) hc0 hy

/-! ## Pipe configuration (`Pipe.Valves` of the source, signing-relevant part) -/

/-- The valves consulted by the enhancement logic.  `MAX_IMAGES_PER_RESPONSE`
is a `Nat`: Python values `<= 0` behave exactly like `0` in the only place the
valve is used (`len(image_urls) >= MAX`). -/
structure Valves where
  ENABLE_STREAMING : Bool := true
  ENABLE_SYSTEM_NOTIFICATION : Bool := false
  SYSTEM_NOTIFICATION_MESSAGE : Str :=
    "Note: This assistant is still learning and may occasionally miss details or make incorrect connections.".data
  ENABLE_KB_IMAGE_DETECTION : Bool := true
  MAX_IMAGES_PER_RESPONSE : Nat := 10
  ENABLE_PRESIGNED_URLS : Bool := false
  DO_SPACES_ACCESS_KEY : Str := []
  DO_SPACES_SECRET_KEY : Str := []
deriving DecidableEq

/-- The fixed redaction placeholder of `_remove_urls_from_text`. -/
def placeholder : Str := "[image will be displayed below]".data

/-- The marker checked by `_needs_signing` for already-signed URLs. -/
def xamzMark : Str := "X-Amz-".data

/-- The Digital Ocean Spaces domain marker checked by `_needs_signing`. -/
def doSpacesMark : Str := ".digitaloceanspaces.com".data

/-- `_needs_signing`: sign iff the feature is on, both credentials are
non-empty, the URL has no `X-Amz-` substring anywhere, and the URL contains
the DO Spaces domain. -/
def needs_signing (v : Valves) (url : Str) : Bool :=
  if !v.ENABLE_PRESIGNED_URLS then false
  else if v.DO_SPACES_ACCESS_KEY.isEmpty || v.DO_SPACES_SECRET_KEY.isEmpty then false
  else if hasSub xamzMark url then false
  else hasSub doSpacesMark url

/-! ## `_extract_image_urls` -/

/-- The candidate loop of `_extract_image_urls` (lines 868-897 of the source).
`seen` accumulates the processed (possibly signed) URLs exactly as the
source's `seen` set does; `sign` is `_generate_presigned_url` (`none` models
every caught exception / failure path). -/
def extractGo (v : Valves) (sign : Str → Option Str) (embedded : List Str) :
    List Str → List Str → List Str → List Str → List Str × List Str
  | [], _seen, imgs, rems => (imgs, rems)
  | url :: rest, seen, imgs, rems =>
    if url ∉ seen ∧ url ∉ embedded then
      if needs_signing v url then
        match sign url with
        | none => extractGo v sign embedded rest seen imgs rems
        | some signed =>
          if v.MAX_IMAGES_PER_RESPONSE ≤ (imgs ++ [signed]).length then
            (imgs ++ [signed], rems ++ [url])
          else extractGo v sign embedded rest (signed :: seen) (imgs ++ [signed]) (rems ++ [url])
      else
        if v.MAX_IMAGES_PER_RESPONSE ≤ (imgs ++ [url]).length then (imgs ++ [url], rems)
        else extractGo v sign embedded rest (url :: seen) (imgs ++ [url]) rems
    else extractGo v sign embedded rest seen imgs rems

/-- `_extract_image_urls`: `findM` is the oracle for
`re.findall(IMAGE_URL_PATTERN, text)` and `findE` for the embedded-image scan
`re.findall("!\\[.*?\\]\\((" + IMAGE_URL_PATTERN + ")\\)", text)`. -/
def extract_image_urls (v : Valves) (sign : Str → Option Str)
    (findM findE : Str → List Str) (text : Str) : List Str × List Str :=
  if text = [] then ([], [])
  else extractGo v sign (findE text) (findM text) [] [] []

/-- `_remove_urls_from_text`: replace each redacted URL, everywhere in the
text, by the fixed placeholder. -/
def remove_urls_from_text (text : Str) (urls : List Str) : Str :=
  urls.foldl (fun t u => replaceAll u placeholder t) text

/-! ## `_format_images_as_markdown` -/

/-- The decimal digit character for `d % 10` (Python `f"{n}"` digits). -/
def digitChar : Nat → Char
  | 0 => '0'
  | 1 => '1'
  | 2 => '2'
  | 3 => '3'
  | 4 => '4'
  | 5 => '5'
  | 6 => '6'
  | 7 => '7'
  | 8 => '8'
  | _ => '9'

/-- Fuel-driven decimal rendering of a natural number (Python `f"{idx}"`). -/
def natCharsF : Nat → Nat → Str
  | 0, _ => []
  | f + 1, n => if n < 10 then [digitChar n] else natCharsF f (n / 10) ++ [digitChar (n % 10)]

/-- Decimal rendering of a natural number. -/
def natChars (n : Nat) : Str := natCharsF (n + 1) n

/-- Python `url.split(ch)[-1]`. -/
def lastSeg (ch : Char) (l : Str) : Str := ((l.reverse).takeWhile (· ≠ ch)).reverse

/-- Python `s.split(ch)[0]`. -/
def firstSeg (ch : Char) (l : Str) : Str := l.takeWhile (· ≠ ch)

/-- Python `s.replace(a, b)` for single characters. -/
def replaceChar (a b : Char) (l : Str) : Str := l.map (fun c => if c = a then b else c)

/-- Python `s.rsplit('.', 1)[0]`. -/
def stripExt (l : Str) : Str :=
  if '.' ∈ l then (((l.reverse).dropWhile (· ≠ '.')).drop 1).reverse else l

/-- ASCII-range letter test (the URLs handled by the pipe are ASCII, so this
matches Python's `str.title` word-boundary test on the pipe's inputs). -/
def isAlphaC (c : Char) : Bool := ('a' ≤ c && c ≤ 'z') || ('A' ≤ c && c ≤ 'Z')

/-- ASCII uppercase conversion. -/
def asciiUpper (c : Char) : Char :=
  if 'a' ≤ c ∧ c ≤ 'z' then Char.ofNat (c.toNat - 32) else c

/-- ASCII lowercase conversion. -/
def asciiLower (c : Char) : Char :=
  if 'A' ≤ c ∧ c ≤ 'Z' then Char.ofNat (c.toNat + 32) else c

/-- Worker for Python `str.title` (ASCII): the flag records whether the
previous character was a letter. -/
def titleGo : Bool → Str → Str
  | _, [] => []
  | prev, c :: r =>
    if isAlphaC c then (if prev then asciiLower c else asciiUpper c) :: titleGo true r
    else c :: titleGo false r

/-- Python `s.title()` (ASCII). -/
def pyTitle (l : Str) : Str := titleGo false l

/-- `filename = url.split('/')[-1].split('?')[0]`. -/
def urlFilename (url : Str) : Str := firstSeg '?' (lastSeg '/' url)

/-- `desc = filename.replace('_',' ').replace('-',' ').rsplit('.',1)[0].title()`. -/
def urlDesc (url : Str) : Str :=
  pyTitle (stripExt (replaceChar '-' ' ' (replaceChar '_' ' ' (urlFilename url))))

/-- One numbered gallery entry of `_format_images_as_markdown`. -/
def imageEntry (idx : Nat) (url : Str) : Str :=
  "**".data ++ natChars idx ++ ". ".data ++ urlDesc url ++ "**\n\n".data ++
    "![".data ++ urlDesc url ++ "](".data ++ url ++ ")\n\n".data

/-- The numbered entries, starting at the given index (the source enumerates
from 1). -/
def imageEntries : Nat → List Str → Str
  | _, [] => []
  | idx, url :: rest => imageEntry idx url ++ imageEntries (idx + 1) rest

/-- The fixed gallery heading. -/
def imagesHeader : Str := "\n\n---\n### 📊 Referenced Images from Knowledge Base:\n\n".data

/-- `_format_images_as_markdown`. -/
def format_images_as_markdown (urls : List Str) : Str :=
  if urls = [] then [] else imagesHeader ++ imageEntries 1 urls

/-! ## `_add_enhancements_to_response` -/

/-- The `message` object of a completion choice: the `content` entry plus the
remaining entries, carried opaquely. -/
structure RMessage where
  content : Str
  mrest : List (Str × Str)
deriving DecidableEq

/-- A completion `choice`: its `message` plus the remaining entries
(`finish_reason`, `index`, ...), carried opaquely. -/
structure RChoice where
  message : RMessage
  crest : List (Str × Str)
deriving DecidableEq

/-- The upstream completion object: `choices` plus the remaining entries
(`id`, `model`, `usage`, ...), carried opaquely. -/
structure RResponse where
  choices : List RChoice
  rrest : List (Str × Str)
deriving DecidableEq

/-- `len([m for m in messages if m.get("role") == "assistant"])`; a request
message is modelled by its optional `role` entry. -/
def assistantCount (roles : List (Option Str)) : Nat :=
  (roles.filter (fun r => r = some "assistant".data)).length

/-- `_add_enhancements_to_response`.  Returns `none` exactly when Python would
raise while writing `response_data["choices"][0]` (no choices to write to). -/
def add_enhancements_to_response (v : Valves) (sign : Str → Option Str)
    (findM findE : Str → List Str) (roles : List (Option Str)) (resp : RResponse) :
    Option RResponse :=
  let original :=
    match resp.choices with
    | [] => []
    | ch :: _ => ch.message.content
  let enhanced1 :=
    if assistantCount roles = 0 ∧ v.ENABLE_SYSTEM_NOTIFICATION then
      original ++ "\n\n".data ++ v.SYSTEM_NOTIFICATION_MESSAGE
    else original
  let enhanced2 :=
    if v.ENABLE_KB_IMAGE_DETECTION ∧ original ≠ [] then
      let er := extract_image_urls v sign findM findE original
      let e3 := if er.2 ≠ [] then remove_urls_from_text enhanced1 er.2 else enhanced1
      if er.1 ≠ [] then e3 ++ format_images_as_markdown er.1 else e3
    else enhanced1
  if enhanced2 = original then some resp
  else
    match resp.choices with
    | [] => none
    | ch :: rest =>
      some { resp with
             choices := { ch with message := { ch.message with content := enhanced2 } } :: rest }

/-! ## `_stream_with_enhancements` -/

/-- An emitted stream element: either an upstream chunk passed through
verbatim, or a synthetic SSE chunk built by `_create_streaming_chunk` (or the
character-by-character re-stream), identified by its `delta.content`. -/
inductive Chunk where
  | raw (line : Str)
  | synthetic (content : Str)
deriving DecidableEq

/-- The text an emitted chunk carries. -/
def chunkContent : Chunk → Str
  | .raw line => line
  | .synthetic c => c

/-- `_stream_with_enhancements` after the buffering pass: `rawChunks` are the
buffered upstream lines (`all_chunks`) and `deltas` the extracted
`delta.content` fragments (`accumulated_content`); the SSE/JSON decoding of
lines 678-706 is the boundary of the model. -/
def stream_with_enhancements (v : Valves) (sign : Str → Option Str)
    (findM findE : Str → List Str) (roles : List (Option Str))
    (rawChunks : List Str) (deltas : List Str) : List Chunk :=
  let full := deltas.flatten
  let er :=
    if v.ENABLE_KB_IMAGE_DETECTION ∧ full ≠ [] then extract_image_urls v sign findM findE full
    else ([], [])
  let filtered := if er.2 ≠ [] then remove_urls_from_text full er.2 else full
  let body :=
    if filtered ≠ full ∨ er.2 ≠ [] then filtered.map (fun c => Chunk.synthetic [c])
    else rawChunks.map Chunk.raw
  let withNotif :=
    if assistantCount roles = 0 ∧ v.ENABLE_SYSTEM_NOTIFICATION then
      body ++ [Chunk.synthetic ("\n\n".data ++ v.SYSTEM_NOTIFICATION_MESSAGE)]
    else body
  if er.1 ≠ [] then withNotif ++ [Chunk.synthetic (format_images_as_markdown er.1)]
  else withNotif

/-! ## Task extraction (`_extract_title`, `_extract_follow_ups`) -/

/-- A Python value as produced by `json.loads`. -/
inductive PyVal where
  | str (s : Str)
  | int (n : Int)
  | boolean (b : Bool)
  | null
  | list (l : List PyVal)
  | dict (kvs : List (Str × PyVal))

/-- Dictionary key lookup. -/
def lookupKV (key : Str) : List (Str × PyVal) → Option PyVal
  | [] => none
  | (k, v) :: rest => if k = key then some v else lookupKV key rest

/-- `content[content.find("\x7b") : content.rfind("\x7d") + 1]` guarded by
`json_start != -1 and json_end > json_start`. -/
def jsonSlice (c : Str) : Option Str :=
  match idxFirst '\x7b' c, idxLast '\x7d' c with
  | some s, some e => if s < e + 1 then some ((c.drop s).take (e + 1 - s)) else none
  | _, _ => none

/-- The key `"follow_ups"`. -/
def followUpsKey : Str := "follow_ups".data

/-- The key `"title"`. -/
def titleKey : Str := "title".data

/-- The two `re.sub` clean-ups plus the final strip of a candidate line of
the follow-up fallback. -/
def cleanLine (line : Str) : Str :=
  let s := pyStrip line
  let s1 :=
    if (s.head?.map Char.isDigit).getD false then
      ((s.dropWhile Char.isDigit).dropWhile
        (fun c => c = '.' || c = ')' || c = '-' || c = ':')).dropWhile isSpaceC
    else s
  let s2 :=
    if (s1.head?.map (fun c => c = '-' || c = '*' || c = '•')).getD false then
      (s1.dropWhile (fun c => c = '-' || c = '*' || c = '•')).dropWhile isSpaceC
    else s1
  pyStrip s2

/-- `cleaned and len(cleaned) > 5 and not startswith("\x7b") and not
startswith("[")`. -/
def keepLine (cl : Str) : Bool :=
  match cl with
  | [] => false
  | c :: _ => decide (5 < cl.length) && decide (c ≠ '\x7b') && decide (c ≠ '[')

/-- Python `s.split('\n')`. -/
def splitNL : Str → List Str
  | [] => [[]]
  | c :: r =>
    let rest := splitNL r
    if c = '\n' then [] :: rest
    else
      match rest with
      | [] => [[c]]
      | h :: t => (c :: h) :: t

/-- The line loop of the follow-up fallback, with its `break` at 5. -/
def fuLoop : List Str → List PyVal → List PyVal
  | [], acc => acc
  | line :: rest, acc =>
    let cl := cleanLine line
    let acc2 := if keepLine cl then acc ++ [PyVal.str cl] else acc
    if 5 ≤ acc2.length then acc2 else fuLoop rest acc2

/-- `_fallback_follow_ups` (always the empty list). -/
def fallback_follow_ups : List PyVal := []

/-- `_extract_follow_ups`: `parse` is the `json.loads` oracle, `none` meaning
the parser raised.  Any parse result other than a dict carrying a list under
`"follow_ups"` ends in the line fallback (either the `in`/`isinstance` test
fails, or the subscript raises and the `except` arm falls through). -/
def extract_follow_ups (parse : Str → Option PyVal) (content : Str) : List PyVal :=
  if content = [] then fallback_follow_ups
  else
    let c := pyStrip content
    let fromJson : Option (List PyVal) :=
      match jsonSlice c with
      | none => none
      | some slice =>
        match parse slice with
        | some (PyVal.dict kvs) =>
          match lookupKV followUpsKey kvs with
          | some (PyVal.list l) => some (l.take 5)
          | _ => none
        | _ => none
    match fromJson with
    | some r => r
    | none =>
      let r := fuLoop (splitNL c) []
      if r.isEmpty then fallback_follow_ups else r

/-- A message of the task body, modelled by its optional `role` entry and its
optional `content` entry. -/
structure TaskMsg where
  role : Option Str
  content : Option PyVal

/-- Python `re.sub(r"\s+", " ", s)`: the flag records whether the previous
character was whitespace. -/
def normWSGo : Bool → Str → Str
  | _, [] => []
  | inRun, c :: r =>
    if isSpaceC c then
      if inRun then normWSGo true r else ' ' :: normWSGo true r
    else c :: normWSGo false r

/-- Python `re.sub(r"\s+", " ", s)`. -/
def normWS (l : Str) : Str := normWSGo false l

/-- The per-message test of `_fallback_title`: the message's string content,
when the message is a user message with non-blank string content. -/
def userText (m : TaskMsg) : Option Str :=
  match m.role, m.content with
  | some r, some (PyVal.str s) =>
    if r = "user".data ∧ pyStrip s ≠ [] then some s else none
  | _, _ => none

/-- The scan of `_fallback_title` over the reversed message list. -/
def fbGo : List TaskMsg → Str
  | [] => "New Chat".data
  | m :: rest =>
    match userText m with
    | some s => normWS ((pyStrip s).take 100)
    | none => fbGo rest

/-- `_fallback_title`. -/
def fallback_title (tb : Option (List TaskMsg)) : Str :=
  match tb with
  | none => "New Chat".data
  | some msgs => fbGo msgs.reverse

/-- The surrounding-quote strip of `_extract_title`'s fallback. -/
def titleQuoteStrip (t : Str) : Str :=
  match t with
  | [] => t
  | c :: _ => if c = '"' ∧ t.getLast? = some '"' then (t.drop 1).dropLast else t

/-- `_extract_title`: JSON first (any value under `"title"` is returned
as-is), then the quote-stripped, 100-character-capped raw text, then
`_fallback_title`. -/
def extract_title (parse : Str → Option PyVal) (tb : Option (List TaskMsg))
    (content : Str) : PyVal :=
  if content = [] then PyVal.str (fallback_title tb)
  else
    let c := pyStrip content
    let fromJson : Option PyVal :=
      match jsonSlice c with
      | none => none
      | some slice =>
        match parse slice with
        | some (PyVal.dict kvs) => lookupKV titleKey kvs
        | _ => none
    match fromJson with
    | some v => v
    | none =>
      let t1 := titleQuoteStrip c
      let t2 := if 100 < t1.length then t1.take 97 ++ "...".data else t1
      if t2 = [] then PyVal.str (fallback_title tb) else PyVal.str t2

/-! ## The relay's JSON fallback (`_invoke_function`, both pipe files) -/

/-- The final `try: return response.json() / except ValueError: ...` of
`_invoke_function`: on a parse failure the stripped body text is returned if
non-empty, otherwise an empty dict. -/
def invoke_function_result (parse : Str → Option PyVal) (bodyText : Str) : PyVal :=
  match parse bodyText with
  | some v => v
  | none =>
    let t := pyStrip bodyText
    if t = [] then PyVal.dict [] else PyVal.str t

/-! ## Invariants of the `_extract_image_urls` candidate loop -/

/-- The loop only ever appends to the gallery accumulator. -/
theorem extractGo_imgs_extend (v : Valves) (sign : Str → Option Str) (embedded : List Str) :
    ∀ (pending seen imgs rems : List Str),
      ∃ ext, (extractGo v sign embedded pending seen imgs rems).1 = imgs ++ ext := by
  intro pending
  induction pending with
  | nil => intro seen imgs rems; exact ⟨[], by simp [extractGo]⟩
  | cons url rest ih =>
    intro seen imgs rems
    by_cases h1 : url ∉ seen ∧ url ∉ embedded
    · by_cases h2 : needs_signing v url = true
      · cases hs : sign url with
        | none =>
          obtain ⟨ext, he⟩ := ih seen imgs rems
          exact ⟨ext, by simp [extractGo, h1, h2, hs, he]⟩
        | some signed =>
          by_cases h3 : v.MAX_IMAGES_PER_RESPONSE ≤ imgs.length + 1
          · exact ⟨[signed], by simp [extractGo, h1, h2, hs, h3]⟩
          · obtain ⟨ext, he⟩ := ih (signed :: seen) (imgs ++ [signed]) (rems ++ [url])
            exact ⟨[signed] ++ ext, by simp [extractGo, h1, h2, hs, h3, he]⟩
      · by_cases h3 : v.MAX_IMAGES_PER_RESPONSE ≤ imgs.length + 1
        · exact ⟨[url], by simp [extractGo, h1, h2, h3]⟩
        · obtain ⟨ext, he⟩ := ih (url :: seen) (imgs ++ [url]) rems
          exact ⟨[url] ++ ext, by simp [extractGo, h1, h2, h3, he]⟩
    · obtain ⟨ext, he⟩ := ih seen imgs rems
      exact ⟨ext, by simp [extractGo, h1, he]⟩

/-- Every URL the loop ever puts on the redaction list was successfully
signed, and its signed counterpart is in the gallery. -/
theorem extractGo_rems_signed (v : Valves) (sign : Str → Option Str) (embedded : List Str) :
    ∀ (pending seen imgs rems : List Str),
      (∀ y ∈ rems, needs_signing v y = true ∧ ∃ s, sign y = some s ∧ s ∈ imgs) →
      ∀ y ∈ (extractGo v sign embedded pending seen imgs rems).2,
        needs_signing v y = true ∧
          ∃ s, sign y = some s ∧ s ∈ (extractGo v sign embedded pending seen imgs rems).1 := by
  intro pending
  induction pending with
  | nil =>
    intro seen imgs rems hinv y hy
    simp only [extractGo] at hy ⊢
    exact hinv y hy
  | cons url rest ih =>
    intro seen imgs rems hinv y hy
    by_cases h1 : url ∉ seen ∧ url ∉ embedded
    · by_cases h2 : needs_signing v url = true
      · cases hs : sign url with
        | none =>
          simp only [extractGo, if_pos h1, if_pos h2, hs] at hy ⊢
          exact ih seen imgs rems hinv y hy
        | some signed =>
          by_cases h3 : v.MAX_IMAGES_PER_RESPONSE ≤ (imgs ++ [signed]).length
          · simp only [extractGo, if_pos h1, if_pos h2, hs, if_pos h3] at hy ⊢
            rcases List.mem_append.mp hy with hmem | hmem
            · obtain ⟨hn, s, hs2, hs3⟩ := hinv y hmem
              exact ⟨hn, s, hs2, List.mem_append.mpr (Or.inl hs3)⟩
            · have : y = url := by simpa using hmem
              subst this
              exact ⟨h2, signed, hs, by simp⟩
          · simp only [extractGo, if_pos h1, if_pos h2, hs, if_neg h3] at hy ⊢
            refine ih (signed :: seen) (imgs ++ [signed]) (rems ++ [url]) ?_ y hy
            intro z hz
            rcases List.mem_append.mp hz with hmem | hmem
            · obtain ⟨hn, s, hs2, hs3⟩ := hinv z hmem
              exact ⟨hn, s, hs2, List.mem_append.mpr (Or.inl hs3)⟩
            · have : z = url := by simpa using hmem
              subst this
              exact ⟨h2, signed, hs, by simp⟩
      · by_cases h3 : v.MAX_IMAGES_PER_RESPONSE ≤ (imgs ++ [url]).length
        · simp only [extractGo, if_pos h1, if_neg h2, if_pos h3] at hy ⊢
          obtain ⟨hn, s, hs2, hs3⟩ := hinv y hy
          exact ⟨hn, s, hs2, List.mem_append.mpr (Or.inl hs3)⟩
        · simp only [extractGo, if_pos h1, if_neg h2, if_neg h3] at hy ⊢
          refine ih (url :: seen) (imgs ++ [url]) rems ?_ y hy
          intro z hz
          obtain ⟨hn, s, hs2, hs3⟩ := hinv z hz
          exact ⟨hn, s, hs2, List.mem_append.mpr (Or.inl hs3)⟩
    · simp only [extractGo, if_neg h1] at hy ⊢
      exact ih seen imgs rems hinv y hy

/-- The gallery never contains a URL of the embedded set, as long as the
signer never returns one (its outputs are fresh signed URLs). -/
theorem extractGo_not_embedded (v : Valves) (sign : Str → Option Str) (embedded : List Str)
    (hsign : ∀ y s, sign y = some s → s ∉ embedded) :
    ∀ (pending seen imgs rems : List Str),
      (∀ x ∈ imgs, x ∉ embedded) →
      ∀ x ∈ (extractGo v sign embedded pending seen imgs rems).1, x ∉ embedded := by
  intro pending
  induction pending with
  | nil =>
    intro seen imgs rems hinv x hx
    simp only [extractGo] at hx
    exact hinv x hx
  | cons url rest ih =>
    intro seen imgs rems hinv x hx
    by_cases h1 : url ∉ seen ∧ url ∉ embedded
    · by_cases h2 : needs_signing v url = true
      · cases hs : sign url with
        | none =>
          simp only [extractGo, if_pos h1, if_pos h2, hs] at hx
          exact ih seen imgs rems hinv x hx
        | some signed =>
          have hnew : ∀ z ∈ imgs ++ [signed], z ∉ embedded := by
            intro z hz
            rcases List.mem_append.mp hz with hmem | hmem
            · exact hinv z hmem
            · have : z = signed := by simpa using hmem
              subst this
              exact hsign url z hs
          by_cases h3 : v.MAX_IMAGES_PER_RESPONSE ≤ (imgs ++ [signed]).length
          · simp only [extractGo, if_pos h1, if_pos h2, hs, if_pos h3] at hx
            exact hnew x hx
          · simp only [extractGo, if_pos h1, if_pos h2, hs, if_neg h3] at hx
            exact ih (signed :: seen) (imgs ++ [signed]) (rems ++ [url]) hnew x hx
      · have hnew : ∀ z ∈ imgs ++ [url], z ∉ embedded := by
          intro z hz
          rcases List.mem_append.mp hz with hmem | hmem
          · exact hinv z hmem
          · have : z = url := by simpa using hmem
            subst this
            exact h1.2
        by_cases h3 : v.MAX_IMAGES_PER_RESPONSE ≤ (imgs ++ [url]).length
        · simp only [extractGo, if_pos h1, if_neg h2, if_pos h3] at hx
          exact hnew x hx
        · simp only [extractGo, if_pos h1, if_neg h2, if_neg h3] at hx
          exact ih (url :: seen) (imgs ++ [url]) rems hnew x hx
    · simp only [extractGo, if_neg h1] at hx
      exact ih seen imgs rems hinv x hx

/-- A candidate whose signing is attempted and fails is skipped with all
accumulators untouched. -/
theorem extractGo_skip_failed (v : Valves) (sign : Str → Option Str) (embedded : List Str)
    {u : Str} (hns : needs_signing v u = true) (hfail : sign u = none)
    (rest seen imgs rems : List Str) :
    extractGo v sign embedded (u :: rest) seen imgs rems =
      extractGo v sign embedded rest seen imgs rems := by
  by_cases h1 : u ∉ seen ∧ u ∉ embedded
  · simp [extractGo, h1, hns, hfail]
  · simp [extractGo, h1]

/-- `_needs_signing` rejects any URL containing `X-Amz-`, whatever the valves. -/
theorem needs_signing_false_of_xamz (v : Valves) {u : Str} (h : hasSub xamzMark u = true) :
    needs_signing v u = false := by
  simp [needs_signing, h]

/-- A candidate whose signing fails is skipped wherever it sits in the
candidate list: the loop result is that of the list without it. -/
theorem extractGo_skip_failed_anywhere (v : Valves) (sign : Str → Option Str)
    (embedded : List Str) {u : Str} (hns : needs_signing v u = true) (hfail : sign u = none) :
    ∀ (pre post seen imgs rems : List Str),
      extractGo v sign embedded (pre ++ u :: post) seen imgs rems =
        extractGo v sign embedded (pre ++ post) seen imgs rems := by
  intro pre
  induction pre with
  | nil =>
    intro post seen imgs rems
    exact extractGo_skip_failed v sign embedded hns hfail post seen imgs rems
  | cons p pre ih =>
    intro post seen imgs rems
    by_cases h1 : p ∉ seen ∧ p ∉ embedded
    · by_cases h2 : needs_signing v p = true
      · cases hs : sign p with
        | none =>
          simp only [List.cons_append, extractGo, if_pos h1, if_pos h2, hs]
          exact ih post seen imgs rems
        | some sg =>
          by_cases h3 : v.MAX_IMAGES_PER_RESPONSE ≤ (imgs ++ [sg]).length
          · simp only [List.cons_append, extractGo, if_pos h1, if_pos h2, hs, if_pos h3]
          · simp only [List.cons_append, extractGo, if_pos h1, if_pos h2, hs, if_neg h3]
            exact ih post (sg :: seen) (imgs ++ [sg]) (rems ++ [p])
      · by_cases h3 : v.MAX_IMAGES_PER_RESPONSE ≤ (imgs ++ [p]).length
        · simp only [List.cons_append, extractGo, if_pos h1, if_neg h2, if_pos h3]
        · simp only [List.cons_append, extractGo, if_pos h1, if_neg h2, if_neg h3]
          exact ih post (p :: seen) (imgs ++ [p]) rems
    · simp only [List.cons_append, extractGo, if_neg h1]
      exact ih post seen imgs rems

/-! ## Claim theorems: C3, C4, C5, C8, C9 -/

/-- C3: a URL already embedded in the text as a Markdown image (an element of
the embedded-image scan result) never appears, by exact string match, in the
gallery list produced by `_extract_image_urls`; candidates equal to an
embedded URL are discarded.  The only hypothesis is on the external signing
capability: a freshly signed URL is not one of the embedded URLs. -/
theorem C3_embedded_never_in_gallery (v : Valves) (sign : Str → Option Str)
    (findM findE : Str → List Str) (text : Str)
    (hsign : ∀ y s, sign y = some s → s ∉ findE text) :
    ∀ x ∈ (extract_image_urls v sign findM findE text).1, x ∉ findE text := by
  intro x hx
  unfold extract_image_urls at hx
  by_cases ht : text = []
  · rw [if_pos ht] at hx
    exact absurd hx (List.not_mem_nil x)
  · rw [if_neg ht] at hx
    exact extractGo_not_embedded v sign (findE text) hsign (findM text) [] [] []
      (by intro z hz; exact absurd hz (List.not_mem_nil z)) x hx

/-- Valves with signing enabled for the duplicate-candidate run. -/
def vSigned : Valves :=
  { ENABLE_PRESIGNED_URLS := true
    DO_SPACES_ACCESS_KEY := "AK".data
    DO_SPACES_SECRET_KEY := "SK".data }

/-- A private DO Spaces URL appearing twice in a response. -/
def uDup : Str := "https://bucket.nyc3.digitaloceanspaces.com/chart.png".data

/-- Its (deterministic) presigned form. -/
def sDup : Str :=
  "https://bucket.nyc3.digitaloceanspaces.com/chart.png?X-Amz-Signature=abc".data

/-- A response text mentioning the same private URL twice. -/
def textDup : Str := "See ".data ++ uDup ++ " and again ".data ++ uDup

/-- C4: evaluation at the failing input.  When the same signable URL occurs
twice, the dedup check compares the raw candidate `uDup` against a `seen` set
holding only the processed URL `sDup`, so the candidate passes again and the
gallery receives the signed URL twice — the output list is not
duplicate-free, contradicting both the claim and the source's own
"Deduplicate while preserving order" / "Smart deduplication prevents
duplicate images" documentation. -/
theorem C4_duplicate_signed_gallery :
    extract_image_urls vSigned (fun _ => some sDup) (fun _ => [uDup, uDup]) (fun _ => [])
        textDup = ([sDup, sDup], [uDup, uDup]) ∧
      ¬ (extract_image_urls vSigned (fun _ => some sDup) (fun _ => [uDup, uDup]) (fun _ => [])
          textDup).1.Nodup := by
  exact ⟨rfl, by decide⟩

/-- C5: a candidate URL for which signing is attempted (`_needs_signing` is
true) and fails (`_generate_presigned_url` returns `None`, which is what
every caught exception produces) is dropped entirely: the loop result equals
the result for the candidate list without it, so the URL enters neither the
gallery nor the redaction list, does not count toward the image limit, and
the remaining candidates are processed exactly as before; since `sign`
returning `none` models every exception arm of the source, nothing
propagates to the caller. -/
theorem C5_sign_failure_drops_candidate (v : Valves) (sign : Str → Option Str)
    (embedded : List Str) (u : Str)
    (hns : needs_signing v u = true) (hfail : sign u = none)
    (pre post seen imgs rems : List Str) :
    extractGo v sign embedded (pre ++ u :: post) seen imgs rems =
      extractGo v sign embedded (pre ++ post) seen imgs rems :=
  extractGo_skip_failed_anywhere v sign embedded hns hfail pre post seen imgs rems

/-- Another signable URL, used as a neighbouring candidate in witnesses. -/
def uOther : Str := "https://bucket.nyc3.digitaloceanspaces.com/map.png".data

/-- Witness for C5 at concrete inputs: with a signer that fails on `uDup`,
the loop over `[uOther, uDup]` equals the loop over `[uOther]`. -/
theorem C5_witness :
    extractGo vSigned (fun w => if w = uDup then none else some sDup) [] [uOther, uDup]
        [] [] [] =
      extractGo vSigned (fun w => if w = uDup then none else some sDup) [] [uOther]
        [] [] [] :=
  C5_sign_failure_drops_candidate vSigned (fun w => if w = uDup then none else some sDup)
    [] uDup (by decide) (by decide) [uOther] [] [] [] []

/-- The default valves (presigning off). -/
def vDefault : Valves := {}

/-- Witness for C3 at concrete inputs: with candidates `[uDup, uOther]` and
embedded set `[uDup]`, the gallery keeps only `uOther`, which is not one of
the embedded URLs. -/
theorem C3_witness :
    uOther ∉ ((fun _ => [uDup]) : Str → List Str) textDup :=
  C3_embedded_never_in_gallery vDefault (fun _ => none) (fun _ => [uDup, uOther])
    (fun _ => [uDup]) textDup (fun _ _ h => Option.noConfusion h) uOther (by decide)

/-- C8 counterexample: a 2xx upstream body that is not valid JSON and not
empty is returned verbatim as text by the `_invoke_function` fallback, not as
an empty ("no content") result. -/
theorem C8_counterexample :
    invoke_function_result (fun _ => none) "hello".data = PyVal.str "hello".data ∧
      PyVal.str "hello".data ≠ PyVal.dict [] :=
  ⟨rfl, fun h => PyVal.noConfusion h⟩

/-- C8 (amended): when the body fails to parse as JSON, `_invoke_function`
returns without raising: the stripped body text when that is non-empty, and
the empty dict (the "no content" value) exactly when the stripped body is
empty. -/
theorem C8_invoke_nonjson (parse : Str → Option PyVal) (b : Str) (h : parse b = none) :
    invoke_function_result parse b =
        (if pyStrip b = [] then PyVal.dict [] else PyVal.str (pyStrip b)) ∧
      (invoke_function_result parse b = PyVal.dict [] ↔ pyStrip b = []) := by
  unfold invoke_function_result
  rw [h]
  refine ⟨rfl, ?_⟩
  by_cases ht : pyStrip b = []
  · simp [ht]
  · simp only [if_neg ht]
    constructor
    · intro he
      exact PyVal.noConfusion he
    · intro he
      exact absurd he ht

/-- Witness for C8's amended statement at a concrete non-JSON body. -/
theorem C8_witness :
    invoke_function_result (fun _ => none) " hi ".data = PyVal.dict [] ↔
      pyStrip " hi ".data = [] :=
  (C8_invoke_nonjson (fun _ => none) " hi ".data rfl).2

/-- C9: a URL containing `X-Amz-` anywhere (path or query) is never signed
whatever the valves say (`_needs_signing` is false even with presigning
enabled and credentials set), is never put on the redaction list, and — when
it passes deduplication and the image limit — is appended to the gallery
unchanged. -/
theorem C9_xamz_passthrough (v : Valves) (u : Str) (h : hasSub xamzMark u = true) :
    needs_signing v u = false ∧
      (∀ (sign : Str → Option Str) (findM findE : Str → List Str) (text : Str),
          u ∉ (extract_image_urls v sign findM findE text).2) ∧
      (∀ (sign : Str → Option Str) (embedded : List Str), u ∉ embedded →
          1 ≤ v.MAX_IMAGES_PER_RESPONSE →
          extractGo v sign embedded [u] [] [] [] = ([u], [])) := by
  have hf := needs_signing_false_of_xamz v h
  refine ⟨hf, ?_, ?_⟩
  · intro sign findM findE text hmem
    unfold extract_image_urls at hmem
    by_cases ht : text = []
    · rw [if_pos ht] at hmem
      exact absurd hmem (List.not_mem_nil u)
    · rw [if_neg ht] at hmem
      obtain ⟨hns, -⟩ := extractGo_rems_signed v sign (findE text) (findM text) [] [] []
        (by intro y hy; exact absurd hy (List.not_mem_nil y)) u hmem
      rw [hf] at hns
      exact Bool.noConfusion hns
  · intro sign embedded hne _
    have h1 : u ∉ ([] : List Str) ∧ u ∉ embedded := ⟨List.not_mem_nil u, hne⟩
    by_cases h3 : v.MAX_IMAGES_PER_RESPONSE ≤ (([] : List Str) ++ [u]).length
    · simp only [extractGo, if_pos h1, hf, Bool.false_eq_true, if_false, if_pos h3]
      simp
    · simp only [extractGo, if_pos h1, hf, Bool.false_eq_true, if_false, if_neg h3]
      simp [extractGo]

/-- An already-signed URL (carrying `X-Amz-` parameters). -/
def uSignedAlready : Str :=
  "https://bucket.nyc3.digitaloceanspaces.com/x.png?X-Amz-Credential=k".data

/-- Witness for C9 at concrete inputs: a presigned URL passes through the
loop unchanged even with signing enabled and credentials configured. -/
theorem C9_witness :
    needs_signing vSigned uSignedAlready = false ∧
      extractGo vSigned (fun _ => some sDup) [] [uSignedAlready] [] [] [] =
        ([uSignedAlready], []) := by
  have h := C9_xamz_passthrough vSigned uSignedAlready (by decide)
  exact ⟨h.1, h.2.2 (fun _ => some sDup) [] (by decide) (by decide)⟩

/-! ## Claim theorems: C6, C7 -/

/-- The follow-up line loop keeps at most five entries once entered below the
cap. -/
theorem fuLoop_length_le : ∀ (lines : List Str) (acc : List PyVal),
    acc.length < 5 → (fuLoop lines acc).length ≤ 5 := by
  intro lines
  induction lines with
  | nil =>
    intro acc h
    simp only [fuLoop]
    omega
  | cons line rest ih =>
    intro acc h
    simp only [fuLoop]
    split_ifs with hk h5 h5
    · simp only [List.length_append, List.length_cons, List.length_nil] at h5 ⊢
      omega
    · refine ih (acc ++ [PyVal.str (cleanLine line)]) ?_
      simp only [List.length_append, List.length_cons, List.length_nil] at h5 ⊢
      omega
    · omega
    · exact ih acc h

/-- The successful-JSON path of `_extract_follow_ups`. -/
theorem extract_follow_ups_json (parse : Str → Option PyVal) {content slice : Str}
    {kvs : List (Str × PyVal)} {l : List PyVal}
    (hc : content ≠ []) (hs : jsonSlice (pyStrip content) = some slice)
    (hp : parse slice = some (PyVal.dict kvs))
    (hk : lookupKV followUpsKey kvs = some (PyVal.list l)) :
    extract_follow_ups parse content = l.take 5 := by
  simp only [extract_follow_ups, if_neg hc, hs, hp, hk]

/-- The concrete six-question JSON body of the claim. -/
def fuJson : Str :=
  "\x7b\"follow_ups\": [\"A?\", \"B?\", \"C?\", \"D?\", \"E?\", \"F?\"]\x7d".data

/-- Its parse, as `json.loads` documents it. -/
def fuVal : PyVal :=
  PyVal.dict [(followUpsKey, PyVal.list
    [PyVal.str "A?".data, PyVal.str "B?".data, PyVal.str "C?".data,
     PyVal.str "D?".data, PyVal.str "E?".data, PyVal.str "F?".data])]

/-- The first five questions. -/
def fuFive : List PyVal :=
  [PyVal.str "A?".data, PyVal.str "B?".data, PyVal.str "C?".data,
   PyVal.str "D?".data, PyVal.str "E?".data]

/-- A six-line plain-text answer. -/
def sixLines : Str :=
  "What about one?\nWhat about two?\nWhat about three?\nWhat about four?\nWhat about five?\nWhat about six?".data

/-- The five lines the fallback keeps. -/
def fiveLines : List PyVal :=
  [PyVal.str "What about one?".data, PyVal.str "What about two?".data,
   PyVal.str "What about three?".data, PyVal.str "What about four?".data,
   PyVal.str "What about five?".data]

set_option maxRecDepth 8000 in
/-- C6: `_extract_follow_ups` never returns more than five entries, for any
parser behaviour and any content; on the six-question JSON input it returns
exactly the first five; and the line-based fallback also stops after five
lines. -/
theorem C6_follow_ups_capped :
    (∀ (parse : Str → Option PyVal) (content : Str),
        (extract_follow_ups parse content).length ≤ 5) ∧
      (∀ parse : Str → Option PyVal, parse fuJson = some fuVal →
        extract_follow_ups parse fuJson = fuFive) ∧
      (∀ parse : Str → Option PyVal, extract_follow_ups parse sixLines = fiveLines) := by
  refine ⟨?_, ?_, ?_⟩
  · intro parse content
    by_cases hc : content = []
    · simp [extract_follow_ups, hc, fallback_follow_ups]
    · simp only [extract_follow_ups, if_neg hc]
      rcases hj : jsonSlice (pyStrip content) with - | slice
      · simp only [hj]
        split_ifs with hz
        · simp [fallback_follow_ups]
        · exact fuLoop_length_le (splitNL (pyStrip content)) [] (by simp)
      · simp only [hj]
        rcases hp : parse slice with - | pv
        · simp only [hp]
          split_ifs with hz
          · simp [fallback_follow_ups]
          · exact fuLoop_length_le (splitNL (pyStrip content)) [] (by simp)
        · match pv with
          | PyVal.dict kvs =>
            simp only [hp]
            rcases hk : lookupKV followUpsKey kvs with - | fv
            · simp only [hk]
              split_ifs with hz
              · simp [fallback_follow_ups]
              · exact fuLoop_length_le (splitNL (pyStrip content)) [] (by simp)
            · match fv with
              | PyVal.list l =>
                simp only [hk]
                have : (l.take 5).length ≤ 5 := by
                  rw [List.length_take]
                  omega
                exact this
              | PyVal.str s =>
                simp only [hk]
                split_ifs with hz
                · simp [fallback_follow_ups]
                · exact fuLoop_length_le (splitNL (pyStrip content)) [] (by simp)
              | PyVal.int n =>
                simp only [hk]
                split_ifs with hz
                · simp [fallback_follow_ups]
                · exact fuLoop_length_le (splitNL (pyStrip content)) [] (by simp)
              | PyVal.boolean b =>
                simp only [hk]
                split_ifs with hz
                · simp [fallback_follow_ups]
                · exact fuLoop_length_le (splitNL (pyStrip content)) [] (by simp)
              | PyVal.null =>
                simp only [hk]
                split_ifs with hz
                · simp [fallback_follow_ups]
                · exact fuLoop_length_le (splitNL (pyStrip content)) [] (by simp)
              | PyVal.dict kvs2 =>
                simp only [hk]
                split_ifs with hz
                · simp [fallback_follow_ups]
                · exact fuLoop_length_le (splitNL (pyStrip content)) [] (by simp)
          | PyVal.str s =>
            simp only [hp]
            split_ifs with hz
            · simp [fallback_follow_ups]
            · exact fuLoop_length_le (splitNL (pyStrip content)) [] (by simp)
          | PyVal.int n =>
            simp only [hp]
            split_ifs with hz
            · simp [fallback_follow_ups]
            · exact fuLoop_length_le (splitNL (pyStrip content)) [] (by simp)
          | PyVal.boolean b =>
            simp only [hp]
            split_ifs with hz
            · simp [fallback_follow_ups]
            · exact fuLoop_length_le (splitNL (pyStrip content)) [] (by simp)
          | PyVal.null =>
            simp only [hp]
            split_ifs with hz
            · simp [fallback_follow_ups]
            · exact fuLoop_length_le (splitNL (pyStrip content)) [] (by simp)
          | PyVal.list l2 =>
            simp only [hp]
            split_ifs with hz
            · simp [fallback_follow_ups]
            · exact fuLoop_length_le (splitNL (pyStrip content)) [] (by simp)
  · intro parse hp
    have := extract_follow_ups_json parse (by decide)
      (by decide : jsonSlice (pyStrip fuJson) = some fuJson) hp
      (rfl : lookupKV followUpsKey
        [(followUpsKey, PyVal.list
          [PyVal.str "A?".data, PyVal.str "B?".data, PyVal.str "C?".data,
           PyVal.str "D?".data, PyVal.str "E?".data, PyVal.str "F?".data])] =
        some (PyVal.list
          [PyVal.str "A?".data, PyVal.str "B?".data, PyVal.str "C?".data,
           PyVal.str "D?".data, PyVal.str "E?".data, PyVal.str "F?".data]))
    rw [this]
    rfl
  · intro parse
    rfl

/-- A parser that answers the documented `json.loads` result on the concrete
follow-up body. -/
def parseFu : Str → Option PyVal := fun s => if s = fuJson then some fuVal else none

/-- Witness for C6 at a concrete parser. -/
theorem C6_witness : extract_follow_ups parseFu fuJson = fuFive :=
  C6_follow_ups_capped.2.1 parseFu (by rfl)

/-- Membership survives `pyStrip`. -/
theorem pyStrip_subset {c : Char} {l : Str} (h : c ∈ pyStrip l) : c ∈ l := by
  unfold pyStrip at h
  rw [List.mem_reverse] at h
  have h2 := (List.dropWhile_suffix isSpaceC).sublist.subset h
  rw [List.mem_reverse] at h2
  exact (List.dropWhile_suffix isSpaceC).sublist.subset h2

/-- `idxFirst` misses exactly the absent characters. -/
theorem idxFirst_eq_none {ch : Char} : ∀ {l : Str}, ch ∉ l → idxFirst ch l = none := by
  intro l
  induction l with
  | nil => intro _; rfl
  | cons c r ih =>
    intro h
    have hc : ¬ c = ch := fun he => h (by rw [he]; exact List.mem_cons_self ch r)
    have hr : ch ∉ r := fun hm => h (List.mem_cons_of_mem c hm)
    simp [idxFirst, hc, ih hr]

/-- Without an opening brace there is no JSON slice. -/
theorem jsonSlice_eq_none {c : Str} (h : '\x7b' ∉ c) : jsonSlice c = none := by
  unfold jsonSlice
  rw [idxFirst_eq_none h]

/-- Whitespace normalisation does not lengthen a string. -/
theorem normWSGo_length_le : ∀ (b : Bool) (l : Str), (normWSGo b l).length ≤ l.length := by
  intro b l
  induction l generalizing b with
  | nil => simp [normWSGo]
  | cons c r ih =>
    simp only [normWSGo]
    split_ifs with h1 h2
    · exact Nat.le_succ_of_le (ih true)
    · simp only [List.length_cons]
      exact Nat.succ_le_succ (ih true)
    · simp only [List.length_cons]
      exact Nat.succ_le_succ (ih false)

/-- The fallback-title scan always returns at most 100 characters. -/
theorem fbGo_length_le : ∀ msgs : List TaskMsg, (fbGo msgs).length ≤ 100 := by
  intro msgs
  induction msgs with
  | nil => decide
  | cons m rest ih =>
    simp only [fbGo]
    cases hu : userText m with
    | none => exact ih
    | some s =>
      calc (normWS ((pyStrip s).take 100)).length
          ≤ ((pyStrip s).take 100).length := normWSGo_length_le false _
        _ ≤ 100 := by
            rw [List.length_take]
            omega

/-- `_fallback_title` returns at most 100 characters. -/
theorem fallback_title_le (tb : Option (List TaskMsg)) : (fallback_title tb).length ≤ 100 := by
  unfold fallback_title
  rcases tb with - | msgs
  · decide
  · exact fbGo_length_le msgs.reverse

/-- The successful-JSON path of `_extract_title`. -/
theorem extract_title_json (parse : Str → Option PyVal) (tb : Option (List TaskMsg))
    {content slice : Str} {kvs : List (Str × PyVal)} {v' : PyVal}
    (hc : content ≠ []) (hs : jsonSlice (pyStrip content) = some slice)
    (hp : parse slice = some (PyVal.dict kvs))
    (hk : lookupKV titleKey kvs = some v') :
    extract_title parse tb content = v' := by
  simp only [extract_title, if_neg hc, hs, hp, hk]

/-- The concrete JSON title body of the claim. -/
def titleJson : Str := "\x7b\"title\": \"Quarterly Report\"\x7d".data

/-- The extracted title. -/
def qReport : Str := "Quarterly Report".data

/-- The concrete plain-text body of the claim. -/
def plainT : Str := "Just a plain sentence.".data

set_option maxRecDepth 8000 in
/-- C7: `_extract_title` first parses the brace-delimited JSON substring and
returns the value under `"title"` when present (the concrete JSON body yields
"Quarterly Report"); otherwise it falls back to the raw text with surrounding
double quotes trimmed and capped at 100 characters with an ellipsis (the
plain sentence comes back unchanged), and every fallback result — including
`_fallback_title` — is at most 100 characters. -/
theorem C7_title_extraction :
    (∀ (parse : Str → Option PyVal) (tb : Option (List TaskMsg)),
        parse titleJson = some (PyVal.dict [(titleKey, PyVal.str qReport)]) →
        extract_title parse tb titleJson = PyVal.str qReport) ∧
      (∀ (parse : Str → Option PyVal) (tb : Option (List TaskMsg)),
        extract_title parse tb plainT = PyVal.str plainT) ∧
      (∀ (parse : Str → Option PyVal) (tb : Option (List TaskMsg)) (content : Str),
        '\x7b' ∉ content →
        ∃ w, extract_title parse tb content = PyVal.str w ∧ w.length ≤ 100) := by
  refine ⟨?_, ?_, ?_⟩
  · intro parse tb hp
    exact extract_title_json parse tb (by decide)
      (by decide : jsonSlice (pyStrip titleJson) = some titleJson) hp rfl
  · intro parse tb
    rfl
  · intro parse tb content hbr
    by_cases hc : content = []
    · refine ⟨fallback_title tb, ?_, fallback_title_le tb⟩
      simp [extract_title, hc]
    · have hnb : '\x7b' ∉ pyStrip content := fun hm => hbr (pyStrip_subset hm)
      have hj : jsonSlice (pyStrip content) = none := jsonSlice_eq_none hnb
      simp only [extract_title, if_neg hc, hj]
      by_cases h100 : 100 < (titleQuoteStrip (pyStrip content)).length
      · rw [if_pos h100]
        have hne : (titleQuoteStrip (pyStrip content)).take 97 ++ "...".data ≠ [] := by
          intro he
          have h3 : ('.' : Char) ∈ ([] : Str) := by
            rw [← he]
            exact List.mem_append.mpr (Or.inr (by decide))
          exact absurd h3 (List.not_mem_nil '.')
        rw [if_neg hne]
        refine ⟨_, rfl, ?_⟩
        simp only [List.length_append, List.length_take]
        have : ("...".data : Str).length = 3 := by decide
        rw [this]
        omega
      · rw [if_neg h100]
        by_cases hz : titleQuoteStrip (pyStrip content) = []
        · rw [if_pos hz]
          exact ⟨fallback_title tb, rfl, fallback_title_le tb⟩
        · rw [if_neg hz]
          exact ⟨_, rfl, Nat.le_of_not_lt h100⟩

/-- A parser answering the documented `json.loads` result on the concrete
title body. -/
def parseTitle : Str → Option PyVal :=
  fun s => if s = titleJson then some (PyVal.dict [(titleKey, PyVal.str qReport)]) else none

/-- Witness for C7 at a concrete parser. -/
theorem C7_witness : extract_title parseTitle none titleJson = PyVal.str qReport :=
  C7_title_extraction.1 parseTitle none (by rfl)

/-! ## Claim theorem: C10 -/

/-- C10: the non-streaming enhancement only ever rewrites
`choices[0].message.content`: for any valves, signer, scan results, request
history and upstream completion with at least one choice, the result keeps
the top-level extra fields, the tail choices, the first choice's extra fields
and the first message's extra fields unchanged; and when no notification is
due and detection finds nothing (or is off, or the content is empty), the
returned object is the upstream object itself. -/
theorem C10_frame (v : Valves) (sign : Str → Option Str) (findM findE : Str → List Str)
    (roles : List (Option Str)) (resp : RResponse) (ch : RChoice) (rest : List RChoice)
    (hch : resp.choices = ch :: rest) :
    ∃ res, add_enhancements_to_response v sign findM findE roles resp = some res ∧
      res.rrest = resp.rrest ∧
      ∃ ch2, res.choices = ch2 :: rest ∧ ch2.crest = ch.crest ∧
        ch2.message.mrest = ch.message.mrest ∧
        ((assistantCount roles ≠ 0 ∨ v.ENABLE_SYSTEM_NOTIFICATION = false) →
         (extract_image_urls v sign findM findE ch.message.content = ([], []) ∨
          v.ENABLE_KB_IMAGE_DETECTION = false ∨ ch.message.content = []) →
         res = resp) := by
  obtain ⟨cs, rr⟩ := resp
  have hcs : cs = ch :: rest := hch
  subst hcs
  have hdef : add_enhancements_to_response v sign findM findE roles ⟨ch :: rest, rr⟩ =
      (if (if v.ENABLE_KB_IMAGE_DETECTION ∧ ch.message.content ≠ [] then
            (let er := extract_image_urls v sign findM findE ch.message.content
             let e3 := if er.2 ≠ [] then
                remove_urls_from_text
                  (if assistantCount roles = 0 ∧ v.ENABLE_SYSTEM_NOTIFICATION then
                    ch.message.content ++ "\n\n".data ++ v.SYSTEM_NOTIFICATION_MESSAGE
                   else ch.message.content) er.2
              else
                (if assistantCount roles = 0 ∧ v.ENABLE_SYSTEM_NOTIFICATION then
                  ch.message.content ++ "\n\n".data ++ v.SYSTEM_NOTIFICATION_MESSAGE
                 else ch.message.content)
             if er.1 ≠ [] then e3 ++ format_images_as_markdown er.1 else e3)
          else
            (if assistantCount roles = 0 ∧ v.ENABLE_SYSTEM_NOTIFICATION then
              ch.message.content ++ "\n\n".data ++ v.SYSTEM_NOTIFICATION_MESSAGE
             else ch.message.content)) = ch.message.content then
        some ⟨ch :: rest, rr⟩
       else
        some ⟨{ ch with message := { ch.message with content :=
          (if v.ENABLE_KB_IMAGE_DETECTION ∧ ch.message.content ≠ [] then
            (let er := extract_image_urls v sign findM findE ch.message.content
             let e3 := if er.2 ≠ [] then
                remove_urls_from_text
                  (if assistantCount roles = 0 ∧ v.ENABLE_SYSTEM_NOTIFICATION then
                    ch.message.content ++ "\n\n".data ++ v.SYSTEM_NOTIFICATION_MESSAGE
                   else ch.message.content) er.2
              else
                (if assistantCount roles = 0 ∧ v.ENABLE_SYSTEM_NOTIFICATION then
                  ch.message.content ++ "\n\n".data ++ v.SYSTEM_NOTIFICATION_MESSAGE
                 else ch.message.content)
             if er.1 ≠ [] then e3 ++ format_images_as_markdown er.1 else e3)
          else
            (if assistantCount roles = 0 ∧ v.ENABLE_SYSTEM_NOTIFICATION then
              ch.message.content ++ "\n\n".data ++ v.SYSTEM_NOTIFICATION_MESSAGE
             else ch.message.content)) } } :: rest, rr⟩) := rfl
  rw [hdef]
  by_cases hq : (if v.ENABLE_KB_IMAGE_DETECTION ∧ ch.message.content ≠ [] then
            (let er := extract_image_urls v sign findM findE ch.message.content
             let e3 := if er.2 ≠ [] then
                remove_urls_from_text
                  (if assistantCount roles = 0 ∧ v.ENABLE_SYSTEM_NOTIFICATION then
                    ch.message.content ++ "\n\n".data ++ v.SYSTEM_NOTIFICATION_MESSAGE
                   else ch.message.content) er.2
              else
                (if assistantCount roles = 0 ∧ v.ENABLE_SYSTEM_NOTIFICATION then
                  ch.message.content ++ "\n\n".data ++ v.SYSTEM_NOTIFICATION_MESSAGE
                 else ch.message.content)
             if er.1 ≠ [] then e3 ++ format_images_as_markdown er.1 else e3)
          else
            (if assistantCount roles = 0 ∧ v.ENABLE_SYSTEM_NOTIFICATION then
              ch.message.content ++ "\n\n".data ++ v.SYSTEM_NOTIFICATION_MESSAGE
             else ch.message.content)) = ch.message.content
  · rw [if_pos hq]
    exact ⟨_, rfl, rfl, ch, rfl, rfl, rfl, fun _ _ => rfl⟩
  · rw [if_neg hq]
    refine ⟨_, rfl, rfl, _, rfl, rfl, rfl, ?_⟩
    intro hq1 hq2
    exfalso
    apply hq
    have hnot : ¬ (assistantCount roles = 0 ∧ v.ENABLE_SYSTEM_NOTIFICATION) := by
      rintro ⟨hc0, hen⟩
      rcases hq1 with h | h
      · exact h hc0
      · rw [h] at hen
        exact Bool.noConfusion hen
    rw [if_neg hnot]
    rcases hq2 with hex | hkb | hct
    · by_cases hkb2 : v.ENABLE_KB_IMAGE_DETECTION ∧ ch.message.content ≠ []
      · rw [if_pos hkb2]
        simp only [hex]
        simp
      · rw [if_neg hkb2]
    · have : ¬ (v.ENABLE_KB_IMAGE_DETECTION ∧ ch.message.content ≠ []) := by
        rintro ⟨h1, -⟩
        rw [hkb] at h1
        exact Bool.noConfusion h1
      rw [if_neg this]
    · have : ¬ (v.ENABLE_KB_IMAGE_DETECTION ∧ ch.message.content ≠ []) := by
        rintro ⟨-, h2⟩
        exact h2 hct
      rw [if_neg this]

/-- A concrete first choice with content and opaque extras. -/
def choice0 : RChoice :=
  { message := { content := "Hello there".data
                 mrest := [("role".data, "assistant".data)] }
    crest := [("finish_reason".data, "stop".data)] }

/-- A concrete completion: one choice plus opaque top-level extras. -/
def resp0 : RResponse :=
  { choices := [choice0]
    rrest := [("id".data, "chatcmpl-1".data), ("model".data, "agent".data)] }

/-- Witness for C10 at concrete inputs: with one prior assistant turn and no
detected images, the completion comes back identical. -/
theorem C10_witness :
    add_enhancements_to_response vDefault (fun _ => none) (fun _ => []) (fun _ => [])
      [some "assistant".data] resp0 = some resp0 := by
  obtain ⟨res, heq, -, -, -, -, -, himp⟩ :=
    C10_frame vDefault (fun _ => none) (fun _ => []) (fun _ => [])
      [some "assistant".data] resp0 choice0 [] rfl
  rw [heq, himp (Or.inl (by decide)) (Or.inl (by decide))]

/-! ## Character facts for the gallery text -/

/-- Characters in the letter block (codes 65-122) are never the slash. -/
theorem ofNat_alpha_ne_slash : ∀ n : Nat, 65 ≤ n → n ≤ 122 → Char.ofNat n ≠ '/' := by
  intro n h1 h2
  interval_cases n <;> decide

/-- `asciiUpper` cannot produce a slash from a non-slash. -/
theorem asciiUpper_ne_slash {c : Char} (h : c ≠ '/') : asciiUpper c ≠ '/' := by
  unfold asciiUpper
  split_ifs with hr
  · have h97 : 97 ≤ c.toNat := by exact hr.1
    have h122 : c.toNat ≤ 122 := by exact hr.2
    exact ofNat_alpha_ne_slash (c.toNat - 32) (by omega) (by omega)
  · exact h

/-- `asciiLower` cannot produce a slash from a non-slash. -/
theorem asciiLower_ne_slash {c : Char} (h : c ≠ '/') : asciiLower c ≠ '/' := by
  unfold asciiLower
  split_ifs with hr
  · have h65 : 65 ≤ c.toNat := by exact hr.1
    have h90 : c.toNat ≤ 90 := by exact hr.2
    exact ofNat_alpha_ne_slash (c.toNat + 32) (by omega) (by omega)
  · exact h

/-- The separator never survives `lastSeg` over itself. -/
theorem lastSeg_no_self (ch : Char) (l : Str) : ch ∉ lastSeg ch l := by
  intro h
  unfold lastSeg at h
  rw [List.mem_reverse] at h
  have := List.mem_takeWhile_imp h
  simp at this

/-- `firstSeg` keeps only characters of the input. -/
theorem mem_firstSeg {c ch : Char} {l : Str} (h : c ∈ firstSeg ch l) : c ∈ l := by
  unfold firstSeg at h
  have hp := List.takeWhile_prefix (fun x : Char => decide (x ≠ ch)) (l := l)
  exact hp.sublist.subset h

/-- `stripExt` keeps only characters of the input. -/
theorem mem_stripExt {c : Char} {l : Str} (h : c ∈ stripExt l) : c ∈ l := by
  unfold stripExt at h
  split_ifs at h with hd
  · rw [List.mem_reverse] at h
    have h2 := List.drop_subset 1 _ h
    have h3 := (List.dropWhile_suffix (fun x : Char => decide (x ≠ '.'))).sublist.subset h2
    rw [List.mem_reverse] at h3
    exact h3
  · exact h

/-- `replaceChar` produces the new character or keeps one of the input. -/
theorem mem_replaceChar {c a b : Char} {l : Str} (h : c ∈ replaceChar a b l) :
    c = b ∨ c ∈ l := by
  unfold replaceChar at h
  rw [List.mem_map] at h
  obtain ⟨d, hd, he⟩ := h
  by_cases hda : d = a
  · rw [if_pos hda] at he
    exact Or.inl he.symm
  · rw [if_neg hda] at he
    exact Or.inr (he ▸ hd)

/-- Characters of `titleGo` output are case conversions of input characters. -/
theorem mem_titleGo {c : Char} : ∀ {b : Bool} {l : Str}, c ∈ titleGo b l →
    ∃ d ∈ l, c = d ∨ c = asciiUpper d ∨ c = asciiLower d := by
  intro b l
  induction l generalizing b with
  | nil => intro h; exact absurd h (List.not_mem_nil c)
  | cons e r ih =>
    intro h
    simp only [titleGo] at h
    by_cases ha : isAlphaC e = true
    · rw [if_pos ha] at h
      rcases List.mem_cons.mp h with hc | hc
      · by_cases hb : b = true
        · rw [if_pos hb] at hc
          exact ⟨e, List.mem_cons_self e r, Or.inr (Or.inr hc)⟩
        · rw [if_neg hb] at hc
          exact ⟨e, List.mem_cons_self e r, Or.inr (Or.inl hc)⟩
      · obtain ⟨d, hd, hor⟩ := ih hc
        exact ⟨d, List.mem_cons_of_mem e hd, hor⟩
    · rw [if_neg ha] at h
      rcases List.mem_cons.mp h with hc | hc
      · exact ⟨e, List.mem_cons_self e r, Or.inl hc⟩
      · obtain ⟨d, hd, hor⟩ := ih hc
        exact ⟨d, List.mem_cons_of_mem e hd, hor⟩

/-- The derived image description never contains a slash: the filename is the
segment after the last slash, and none of the later transformations can
introduce one. -/
theorem urlDesc_no_slash (w : Str) : '/' ∉ urlDesc w := by
  intro h
  unfold urlDesc pyTitle at h
  obtain ⟨d, hd, hc⟩ := mem_titleGo h
  have hd2 := mem_stripExt hd
  have hdne : d ≠ '/' := by
    rcases mem_replaceChar hd2 with he | hd3
    · rw [he]; decide
    · rcases mem_replaceChar hd3 with he | hd4
      · rw [he]; decide
      · intro hslash
        rw [hslash] at hd4
        exact lastSeg_no_self '/' w (mem_firstSeg hd4)
  rcases hc with he | he | he
  · exact hdne he.symm
  · exact asciiUpper_ne_slash hdne he.symm
  · exact asciiLower_ne_slash hdne he.symm

/-- Decimal digits. -/
theorem digitChar_digit : ∀ d : Nat, (digitChar d).isDigit = true := by
  intro d
  match d with
  | 0 => rfl
  | 1 => rfl
  | 2 => rfl
  | 3 => rfl
  | 4 => rfl
  | 5 => rfl
  | 6 => rfl
  | 7 => rfl
  | 8 => rfl
  | n + 9 => rfl

/-- Every character of `natCharsF` is a digit. -/
theorem natCharsF_digits : ∀ (f n : Nat) (c : Char), c ∈ natCharsF f n → c.isDigit = true := by
  intro f
  induction f with
  | zero => intro n c h; exact absurd h (List.not_mem_nil c)
  | succ f ih =>
    intro n c h
    simp only [natCharsF] at h
    split_ifs at h with hn
    · have : c = digitChar n := by simpa using h
      rw [this]
      exact digitChar_digit n
    · rcases List.mem_append.mp h with hm | hm
      · exact ih (n / 10) c hm
      · have : c = digitChar (n % 10) := by simpa using hm
        rw [this]
        exact digitChar_digit (n % 10)

/-- The decimal rendering never contains a slash. -/
theorem natChars_no_slash (n : Nat) : '/' ∉ natChars n := by
  intro h
  have := natCharsF_digits (n + 1) n '/' h
  exact absurd this (by decide)

/-! ## The gallery never re-exposes a redacted URL -/

/-- Character-shape facts of a private image URL as matched by the default
`IMAGE_URL_PATTERN`: it is non-empty, starts with `https` (so its head is not
a placeholder character), contains a slash, contains neither whitespace nor
the regex-excluded / markup characters, and ends in an image extension (so
not in a dot). -/
structure UrlShape (u : Str) : Prop where
  ne : u ≠ []
  brLeft : '[' ∉ u
  nl : '\n' ∉ u
  sp : ' ' ∉ u
  star : '*' ∉ u
  brRight : ']' ∉ u
  parLeft : '(' ∉ u
  parRight : ')' ∉ u
  slash : '/' ∈ u
  headNotPH : ∀ c, u.head? = some c → c ∉ placeholder
  lastNotDot : u.getLast? ≠ some '.'

/-- Turn a known last character into the side condition of
`noInfix_append_last`. -/
theorem lastChar_not {x : Str} {a : Char} (hx : x.getLast? = some a) {u : Str}
    (ha : a ∉ u) : ∀ c, x.getLast? = some c → c ∉ u := by
  intro c hc
  rw [hx] at hc
  exact Option.some_inj.mp hc ▸ ha

/-- Turn a known head character into the side condition of
`noInfix_append_head`. -/
theorem headChar_not {y : Str} {a : Char} (hy : y.head? = some a) {u : Str}
    (ha : a ∉ u) : ∀ c, y.head? = some c → c ∉ u := by
  intro c hc
  rw [hy] at hc
  exact Option.some_inj.mp hc ▸ ha

/-- A URL of the pipe's shape never occurs inside a gallery entry built for a
URL it does not occur in. -/
theorem entry_no_u {u : Str} (hs : UrlShape u) {w : Str} (hw : ¬ u <:+: w) (idx : Nat) :
    ¬ u <:+: imageEntry idx w := by
  have hB1 : ¬ u <:+: ("**".data : Str) := not_infix_of_mem hs.slash (by decide)
  have hN : ¬ u <:+: natChars idx := not_infix_of_mem hs.slash (natChars_no_slash idx)
  have hB2 : ¬ u <:+: (". ".data : Str) := not_infix_of_mem hs.slash (by decide)
  have hD : ¬ u <:+: urlDesc w := not_infix_of_mem hs.slash (urlDesc_no_slash w)
  have hB3 : ¬ u <:+: ("**\n\n".data : Str) := not_infix_of_mem hs.slash (by decide)
  have hB4 : ¬ u <:+: ("![".data : Str) := not_infix_of_mem hs.slash (by decide)
  have hB5 : ¬ u <:+: ("](".data : Str) := not_infix_of_mem hs.slash (by decide)
  have hB7 : ¬ u <:+: (")\n\n".data : Str) := not_infix_of_mem hs.slash (by decide)
  have hP2 : ¬ u <:+: ("**".data ++ natChars idx) :=
    noInfix_append_last hB1 hN
      (lastChar_not (by rfl : ("**".data : Str).getLast? = some '*') hs.star)
  have hP3 : ¬ u <:+: ("**".data ++ natChars idx ++ ". ".data) := by
    intro hin
    rcases infixSplit hin with hl | hr | ⟨u1, u2, hu12, h1ne, h2ne, hsf, hpf⟩
    · exact hP2 hl
    · exact hB2 hr
    · match u2, h2ne, hpf with
      | c :: u2', h2ne, hpf =>
        have hc : c = '.' ∧ u2' <+: ([' '] : Str) := by
          have h' := hpf
          rw [show (". ".data : Str) = '.' :: [' '] from rfl] at h'
          exact List.cons_prefix_cons.mp h'
        obtain ⟨rfl, h2'⟩ := hc
        match u2', h2' with
        | [], h2' =>
          apply hs.lastNotDot
          rw [hu12]
          simp
        | c2 :: u2'', h2' =>
          have hc2 : c2 = ' ' ∧ u2'' <+: ([] : Str) := List.cons_prefix_cons.mp h2'
          apply hs.sp
          obtain ⟨hceq, -⟩ := hc2
          subst hceq
          rw [hu12]
          simp
  have hlP3 : ("**".data ++ natChars idx ++ ". ".data).getLast? = some ' ' := by
    rw [List.getLast?_append]
    rfl
  have hP4 : ¬ u <:+: ("**".data ++ natChars idx ++ ". ".data ++ urlDesc w) :=
    noInfix_append_last hP3 hD (lastChar_not hlP3 hs.sp)
  have hP5 : ¬ u <:+:
      ("**".data ++ natChars idx ++ ". ".data ++ urlDesc w ++ "**\n\n".data) :=
    noInfix_append_head hP4 hB3
      (headChar_not (by rfl : ("**\n\n".data : Str).head? = some '*') hs.star)
  have hlP5 : ("**".data ++ natChars idx ++ ". ".data ++ urlDesc w ++
      "**\n\n".data).getLast? = some '\n' := by
    rw [List.getLast?_append]
    rfl
  have hP6 : ¬ u <:+:
      ("**".data ++ natChars idx ++ ". ".data ++ urlDesc w ++ "**\n\n".data ++
        "![".data) :=
    noInfix_append_last hP5 hB4 (lastChar_not hlP5 hs.nl)
  have hlP6 : ("**".data ++ natChars idx ++ ". ".data ++ urlDesc w ++ "**\n\n".data ++
      "![".data).getLast? = some '[' := by
    rw [List.getLast?_append]
    rfl
  have hP7 : ¬ u <:+:
      ("**".data ++ natChars idx ++ ". ".data ++ urlDesc w ++ "**\n\n".data ++
        "![".data ++ urlDesc w) :=
    noInfix_append_last hP6 hD (lastChar_not hlP6 hs.brLeft)
  have hP8 : ¬ u <:+:
      ("**".data ++ natChars idx ++ ". ".data ++ urlDesc w ++ "**\n\n".data ++
        "![".data ++ urlDesc w ++ "](".data) :=
    noInfix_append_head hP7 hB5
      (headChar_not (by rfl : ("](".data : Str).head? = some ']') hs.brRight)
  have hlP8 : ("**".data ++ natChars idx ++ ". ".data ++ urlDesc w ++ "**\n\n".data ++
      "![".data ++ urlDesc w ++ "](".data).getLast? = some '(' := by
    rw [List.getLast?_append]
    rfl
  have hP9 : ¬ u <:+:
      ("**".data ++ natChars idx ++ ". ".data ++ urlDesc w ++ "**\n\n".data ++
        "![".data ++ urlDesc w ++ "](".data ++ w) :=
    noInfix_append_last hP8 hw (lastChar_not hlP8 hs.parLeft)
  unfold imageEntry
  exact noInfix_append_head hP9 hB7
    (headChar_not (by rfl : (")\n\n".data : Str).head? = some ')') hs.parRight)

/-- A gallery entry always ends in a newline. -/
theorem entry_last (idx : Nat) (w : Str) : (imageEntry idx w).getLast? = some '\n' := by
  unfold imageEntry
  rw [List.getLast?_append]
  rfl

/-- A URL of the pipe's shape never occurs in the numbered entries built for
URLs it does not occur in. -/
theorem entries_no_u {u : Str} (hs : UrlShape u) :
    ∀ (urls : List Str) (idx : Nat), (∀ w ∈ urls, ¬ u <:+: w) →
      ¬ u <:+: imageEntries idx urls := by
  intro urls
  induction urls with
  | nil =>
    intro idx _ h
    rw [show imageEntries idx [] = [] from rfl] at h
    exact hs.ne (List.infix_nil.mp h)
  | cons w rest ih =>
    intro idx hws
    show ¬ u <:+: (imageEntry idx w ++ imageEntries (idx + 1) rest)
    refine noInfix_append_last (entry_no_u hs (hws w (List.mem_cons_self w rest)) idx)
      (ih (idx + 1) (fun x hx => hws x (List.mem_cons_of_mem w hx))) ?_
    exact lastChar_not (entry_last idx w) hs.nl

/-- A URL of the pipe's shape never occurs anywhere in the appended gallery,
as long as it occurs in none of the gallery's (possibly signed) URLs. -/
theorem markdown_no_u {u : Str} (hs : UrlShape u) {urls : List Str}
    (hws : ∀ w ∈ urls, ¬ u <:+: w) : ¬ u <:+: format_images_as_markdown urls := by
  unfold format_images_as_markdown
  split_ifs with hnil
  · intro h
    exact hs.ne (List.infix_nil.mp h)
  · refine noInfix_append_last ?_ (entries_no_u hs urls 1 hws) ?_
    · exact not_infix_of_mem hs.slash (by decide)
    · exact lastChar_not (by decide) hs.nl

/-- Every gallery URL occurs verbatim inside its Markdown image tag in the
formatted gallery. -/
theorem mem_gallery_occurs {w : Str} : ∀ {urls : List Str} {idx : Nat}, w ∈ urls →
    w <:+: imageEntries idx urls := by
  intro urls
  induction urls with
  | nil => intro idx h; exact absurd h (List.not_mem_nil w)
  | cons x rest ih =>
    intro idx h
    rcases List.mem_cons.mp h with rfl | hm
    · show w <:+: (imageEntry idx w ++ imageEntries (idx + 1) rest)
      have h1 : w <:+: imageEntry idx w := by
        unfold imageEntry
        have h2 : w <:+ ("**".data ++ natChars idx ++ ". ".data ++ urlDesc w ++
            "**\n\n".data ++ "![".data ++ urlDesc w ++ "](".data ++ w) :=
          List.suffix_append _ w
        exact h2.isInfix.trans (List.prefix_append _ _).isInfix
      exact h1.trans (List.prefix_append _ _).isInfix
    · exact (ih hm).trans (List.suffix_append _ _).isInfix

/-- Every gallery URL occurs in the formatted gallery. -/
theorem mem_markdown_occurs {w : Str} {urls : List Str} (h : w ∈ urls) :
    w <:+: format_images_as_markdown urls := by
  unfold format_images_as_markdown
  rw [if_neg (by rintro rfl; exact List.not_mem_nil w h)]
  exact (mem_gallery_occurs h).trans (List.suffix_append _ _).isInfix

/-! ## Redaction removes the URL for good -/

/-- The placeholder starts with an opening bracket. -/
theorem placeholder_head : placeholder.head? = some '[' := by rfl

/-- Side condition: the placeholder's head does not occur in a shaped URL. -/
theorem urlShape_hpu {u : Str} (hs : UrlShape u) :
    ∀ a, placeholder.head? = some a → a ∉ u :=
  headChar_not placeholder_head hs.brLeft

/-- Later replacement passes (for other URLs) cannot re-create `u`. -/
theorem fold_repl_preserve {u : Str} (hs : UrlShape u) :
    ∀ (post : List Str) (t0 : Str), ¬ u <:+: t0 →
      ¬ u <:+: List.foldl (fun t w => replaceAll w placeholder t) t0 post := by
  intro post
  induction post with
  | nil => intro t0 h; exact h
  | cons w rest ih =>
    intro t0 h
    rw [List.foldl_cons]
    exact ih _ (replaceAll_preserves_no_needle hs.ne (by decide) (urlShape_hpu hs)
      hs.headNotPH h)

/-- `_remove_urls_from_text` removes every occurrence of each listed URL, and
no later pass re-creates one: the output contains no occurrence of `u`. -/
theorem remove_urls_no_needle {u : Str} (hs : UrlShape u) {urls : List Str}
    (hm : u ∈ urls) (t : Str) : ¬ u <:+: remove_urls_from_text t urls := by
  obtain ⟨pre, post, rfl⟩ := List.append_of_mem hm
  unfold remove_urls_from_text
  rw [List.foldl_append, List.foldl_cons]
  exact fold_repl_preserve hs post _
    (replaceAll_no_needle hs.ne (by decide) (urlShape_hpu hs) hs.headNotPH)

/-- The redaction list never outgrows the gallery. -/
theorem extractGo_rems_le (v : Valves) (sign : Str → Option Str) (embedded : List Str) :
    ∀ (pending seen imgs rems : List Str), rems.length ≤ imgs.length →
      (extractGo v sign embedded pending seen imgs rems).2.length ≤
        (extractGo v sign embedded pending seen imgs rems).1.length := by
  intro pending
  induction pending with
  | nil => intro seen imgs rems h; exact h
  | cons url rest ih =>
    intro seen imgs rems h
    by_cases h1 : url ∉ seen ∧ url ∉ embedded
    · by_cases h2 : needs_signing v url = true
      · cases hs : sign url with
        | none =>
          simp only [extractGo, if_pos h1, if_pos h2, hs]
          exact ih seen imgs rems h
        | some sg =>
          by_cases h3 : v.MAX_IMAGES_PER_RESPONSE ≤ (imgs ++ [sg]).length
          · simp only [extractGo, if_pos h1, if_pos h2, hs, if_pos h3]
            simp only [List.length_append, List.length_cons, List.length_nil]
            omega
          · simp only [extractGo, if_pos h1, if_pos h2, hs, if_neg h3]
            refine ih (sg :: seen) (imgs ++ [sg]) (rems ++ [url]) ?_
            simp only [List.length_append, List.length_cons, List.length_nil]
            omega
      · by_cases h3 : v.MAX_IMAGES_PER_RESPONSE ≤ (imgs ++ [url]).length
        · simp only [extractGo, if_pos h1, if_neg h2, if_pos h3]
          simp only [List.length_append, List.length_cons, List.length_nil]
          omega
        · simp only [extractGo, if_pos h1, if_neg h2, if_neg h3]
          refine ih (url :: seen) (imgs ++ [url]) rems ?_
          simp only [List.length_append, List.length_cons, List.length_nil]
          omega
    · simp only [extractGo, if_neg h1]
      exact ih seen imgs rems h

/-- A redacted URL guarantees a non-empty text and a non-empty gallery. -/
theorem extract_nonempty_of_rem {v : Valves} {sign : Str → Option Str}
    {findM findE : Str → List Str} {text u : Str} {imgs rems : List Str}
    (hex : extract_image_urls v sign findM findE text = (imgs, rems))
    (hmem : u ∈ rems) : text ≠ [] ∧ imgs ≠ [] := by
  by_cases ht : text = []
  · rw [extract_image_urls, if_pos ht] at hex
    obtain ⟨-, hr⟩ := Prod.mk.injEq .. ▸ hex
    rw [← hr] at hmem
    exact absurd hmem (List.not_mem_nil u)
  · refine ⟨ht, ?_⟩
    rw [extract_image_urls, if_neg ht] at hex
    have hle := extractGo_rems_le v sign (findE text) (findM text) [] [] [] (le_refl 0)
    rw [hex] at hle
    intro hie
    rw [hie] at hle
    simp only [List.length_nil, Nat.le_zero, List.length_eq_zero] at hle
    rw [hle] at hmem
    exact absurd hmem (List.not_mem_nil u)

/-- A non-empty gallery renders with the fixed heading, so it starts with a
newline. -/
theorem markdown_head {urls : List Str} (h : urls ≠ []) :
    (format_images_as_markdown urls).head? = some '\n' := by
  unfold format_images_as_markdown
  rw [if_neg h]
  rw [show (imagesHeader ++ imageEntries 1 urls) =
    '\n' :: ("\n---\n### 📊 Referenced Images from Knowledge Base:\n\n".data ++
      imageEntries 1 urls) from rfl]
  rfl

/-- The content produced by `_add_enhancements_to_response` when detection is
on, the text is non-empty, and extraction yields redactions and gallery
entries: redacted text followed by the formatted gallery. -/
theorem add_enh_content (v : Valves) (sign : Str → Option Str) (findM findE : Str → List Str)
    (roles : List (Option Str)) (ch : RChoice) (rest : List RChoice) (rr : List (Str × Str))
    {imgs rems : List Str}
    (hkb : v.ENABLE_KB_IMAGE_DETECTION = true) (hoc : ch.message.content ≠ [])
    (hex : extract_image_urls v sign findM findE ch.message.content = (imgs, rems))
    (hrne : rems ≠ []) (hine : imgs ≠ []) :
    ∃ res ch2,
      add_enhancements_to_response v sign findM findE roles ⟨ch :: rest, rr⟩ = some res ∧
      res.choices = ch2 :: rest ∧
      ch2.message.content =
        remove_urls_from_text
          (if assistantCount roles = 0 ∧ v.ENABLE_SYSTEM_NOTIFICATION then
            ch.message.content ++ "\n\n".data ++ v.SYSTEM_NOTIFICATION_MESSAGE
           else ch.message.content) rems ++ format_images_as_markdown imgs := by
  have hdef : add_enhancements_to_response v sign findM findE roles ⟨ch :: rest, rr⟩ =
      (if (if v.ENABLE_KB_IMAGE_DETECTION ∧ ch.message.content ≠ [] then
            (let er := extract_image_urls v sign findM findE ch.message.content
             let e3 := if er.2 ≠ [] then
                remove_urls_from_text
                  (if assistantCount roles = 0 ∧ v.ENABLE_SYSTEM_NOTIFICATION then
                    ch.message.content ++ "\n\n".data ++ v.SYSTEM_NOTIFICATION_MESSAGE
                   else ch.message.content) er.2
              else
                (if assistantCount roles = 0 ∧ v.ENABLE_SYSTEM_NOTIFICATION then
                  ch.message.content ++ "\n\n".data ++ v.SYSTEM_NOTIFICATION_MESSAGE
                 else ch.message.content)
             if er.1 ≠ [] then e3 ++ format_images_as_markdown er.1 else e3)
          else
            (if assistantCount roles = 0 ∧ v.ENABLE_SYSTEM_NOTIFICATION then
              ch.message.content ++ "\n\n".data ++ v.SYSTEM_NOTIFICATION_MESSAGE
             else ch.message.content)) = ch.message.content then
        some ⟨ch :: rest, rr⟩
       else
        some ⟨{ ch with message := { ch.message with content :=
          (if v.ENABLE_KB_IMAGE_DETECTION ∧ ch.message.content ≠ [] then
            (let er := extract_image_urls v sign findM findE ch.message.content
             let e3 := if er.2 ≠ [] then
                remove_urls_from_text
                  (if assistantCount roles = 0 ∧ v.ENABLE_SYSTEM_NOTIFICATION then
                    ch.message.content ++ "\n\n".data ++ v.SYSTEM_NOTIFICATION_MESSAGE
                   else ch.message.content) er.2
              else
                (if assistantCount roles = 0 ∧ v.ENABLE_SYSTEM_NOTIFICATION then
                  ch.message.content ++ "\n\n".data ++ v.SYSTEM_NOTIFICATION_MESSAGE
                 else ch.message.content)
             if er.1 ≠ [] then e3 ++ format_images_as_markdown er.1 else e3)
          else
            (if assistantCount roles = 0 ∧ v.ENABLE_SYSTEM_NOTIFICATION then
              ch.message.content ++ "\n\n".data ++ v.SYSTEM_NOTIFICATION_MESSAGE
             else ch.message.content)) } } :: rest, rr⟩) := rfl
  have hE2 : (if v.ENABLE_KB_IMAGE_DETECTION ∧ ch.message.content ≠ [] then
            (let er := extract_image_urls v sign findM findE ch.message.content
             let e3 := if er.2 ≠ [] then
                remove_urls_from_text
                  (if assistantCount roles = 0 ∧ v.ENABLE_SYSTEM_NOTIFICATION then
                    ch.message.content ++ "\n\n".data ++ v.SYSTEM_NOTIFICATION_MESSAGE
                   else ch.message.content) er.2
              else
                (if assistantCount roles = 0 ∧ v.ENABLE_SYSTEM_NOTIFICATION then
                  ch.message.content ++ "\n\n".data ++ v.SYSTEM_NOTIFICATION_MESSAGE
                 else ch.message.content)
             if er.1 ≠ [] then e3 ++ format_images_as_markdown er.1 else e3)
          else
            (if assistantCount roles = 0 ∧ v.ENABLE_SYSTEM_NOTIFICATION then
              ch.message.content ++ "\n\n".data ++ v.SYSTEM_NOTIFICATION_MESSAGE
             else ch.message.content)) =
      remove_urls_from_text
        (if assistantCount roles = 0 ∧ v.ENABLE_SYSTEM_NOTIFICATION then
          ch.message.content ++ "\n\n".data ++ v.SYSTEM_NOTIFICATION_MESSAGE
         else ch.message.content) rems ++ format_images_as_markdown imgs := by
    rw [if_pos ⟨hkb, hoc⟩]
    simp only [hex]
    rw [if_pos hrne, if_pos hine]
  rw [hdef]
  by_cases houter : (if v.ENABLE_KB_IMAGE_DETECTION ∧ ch.message.content ≠ [] then
            (let er := extract_image_urls v sign findM findE ch.message.content
             let e3 := if er.2 ≠ [] then
                remove_urls_from_text
                  (if assistantCount roles = 0 ∧ v.ENABLE_SYSTEM_NOTIFICATION then
                    ch.message.content ++ "\n\n".data ++ v.SYSTEM_NOTIFICATION_MESSAGE
                   else ch.message.content) er.2
              else
                (if assistantCount roles = 0 ∧ v.ENABLE_SYSTEM_NOTIFICATION then
                  ch.message.content ++ "\n\n".data ++ v.SYSTEM_NOTIFICATION_MESSAGE
                 else ch.message.content)
             if er.1 ≠ [] then e3 ++ format_images_as_markdown er.1 else e3)
          else
            (if assistantCount roles = 0 ∧ v.ENABLE_SYSTEM_NOTIFICATION then
              ch.message.content ++ "\n\n".data ++ v.SYSTEM_NOTIFICATION_MESSAGE
             else ch.message.content)) = ch.message.content
  · rw [if_pos houter]
    refine ⟨_, ch, rfl, rfl, ?_⟩
    conv_lhs => rw [← houter]
    exact hE2
  · rw [if_neg houter]
    exact ⟨_, _, rfl, rfl, hE2⟩

/-- C2: in the non-streaming path, for any URL `u` put on the redaction list
(signing attempted and succeeded), the enhanced content is the text with
every verbatim occurrence of each redacted URL replaced by the fixed
placeholder, followed by the appended gallery; `u` occurs nowhere in the
final content, and `u`'s signed form appears inside the appended gallery.
Hypotheses beyond the scenario: `u` has the character shape of a
pattern-matched URL, and neither the signed URLs nor the notification text
contain `u` (the signer is an external capability producing fresh URLs). -/
theorem C2_nonstreaming_redaction (v : Valves) (sign : Str → Option Str)
    (findM findE : Str → List Str) (roles : List (Option Str)) (resp : RResponse)
    (ch : RChoice) (rest : List RChoice) (u : Str) (imgs rems : List Str)
    (hch : resp.choices = ch :: rest)
    (hkb : v.ENABLE_KB_IMAGE_DETECTION = true)
    (hex : extract_image_urls v sign findM findE ch.message.content = (imgs, rems))
    (hmem : u ∈ rems)
    (hs : UrlShape u)
    (himgs : ∀ w ∈ imgs, ¬ u <:+: w) :
    ∃ res ch2,
      add_enhancements_to_response v sign findM findE roles resp = some res ∧
      res.choices = ch2 :: rest ∧
      ch2.message.content =
        remove_urls_from_text
          (if assistantCount roles = 0 ∧ v.ENABLE_SYSTEM_NOTIFICATION then
            ch.message.content ++ "\n\n".data ++ v.SYSTEM_NOTIFICATION_MESSAGE
           else ch.message.content) rems ++ format_images_as_markdown imgs ∧
      ¬ u <:+: ch2.message.content ∧
      ∃ s', sign u = some s' ∧ s' ∈ imgs ∧ s' <:+: format_images_as_markdown imgs := by
  obtain ⟨hoc, hine⟩ := extract_nonempty_of_rem hex hmem
  have hrne : rems ≠ [] := by
    rintro rfl
    exact absurd hmem (List.not_mem_nil u)
  obtain ⟨cs, rr⟩ := resp
  have hcs : cs = ch :: rest := hch
  subst hcs
  obtain ⟨res, ch2, h1, h2, h3⟩ :=
    add_enh_content v sign findM findE roles ch rest rr hkb hoc hex hrne hine
  have hnou : ¬ u <:+: ch2.message.content := by
    rw [h3]
    exact noInfix_append_head (remove_urls_no_needle hs hmem _) (markdown_no_u hs himgs)
      (headChar_not (markdown_head hine) hs.nl)
  have hexg := hex
  rw [extract_image_urls, if_neg hoc] at hexg
  have hmem2 : u ∈ (extractGo v sign (findE ch.message.content)
      (findM ch.message.content) [] [] []).2 := by
    rw [hexg]
    exact hmem
  obtain ⟨-, s', hs1, hs2⟩ := extractGo_rems_signed v sign (findE ch.message.content)
    (findM ch.message.content) [] [] []
    (by intro y hy; exact absurd hy (List.not_mem_nil y)) u hmem2
  rw [hexg] at hs2
  exact ⟨res, ch2, h1, h2, h3, hnou, s', hs1, hs2, mem_markdown_occurs hs2⟩

/-- The fresh signed URL for the C1/C2 witnesses (does not contain the
original). -/
def sFresh : Str := "https://cdn.example.net/signed-chart.png".data

/-- The witness response text around the private URL. -/
def contentW : Str := "Look at ".data ++ uDup ++ " now".data

/-- The witness completion. -/
def respW : RResponse :=
  { choices := [{ message := { content := contentW, mrest := [] }, crest := [] }]
    rrest := [("id".data, "c1".data)] }

/-- Witness for C2 at concrete inputs. -/
theorem C2_witness :
    ∃ res ch2,
      add_enhancements_to_response vSigned (fun w => if w = uDup then some sFresh else none)
        (fun _ => [uDup]) (fun _ => []) [] respW = some res ∧
      res.choices = ch2 :: [] ∧
      ch2.message.content =
        remove_urls_from_text
          (if assistantCount [] = 0 ∧ vSigned.ENABLE_SYSTEM_NOTIFICATION then
            contentW ++ "\n\n".data ++ vSigned.SYSTEM_NOTIFICATION_MESSAGE
           else contentW) [uDup] ++ format_images_as_markdown [sFresh] ∧
      ¬ uDup <:+: ch2.message.content ∧
      ∃ s', (if uDup = uDup then some sFresh else none) = some s' ∧ s' ∈ [sFresh] ∧
        s' <:+: format_images_as_markdown [sFresh] :=
  C2_nonstreaming_redaction vSigned (fun w => if w = uDup then some sFresh else none)
    (fun _ => [uDup]) (fun _ => []) [] respW
    { message := { content := contentW, mrest := [] }, crest := [] } [] uDup
    [sFresh] [uDup] rfl (by decide) (by decide) (by decide)
    (by
      refine ⟨by decide, by decide, by decide, by decide, by decide, by decide, by decide,
        by decide, by decide, ?_, by decide⟩
      intro c hc
      rw [show uDup.head? = some 'h' from rfl] at hc
      cases hc
      decide)
    (by
      intro w hw
      rw [show w ∈ [sFresh] ↔ w = sFresh from List.mem_singleton] at hw
      subst hw
      decide)

/-! ## C1: the streaming path -/

/-- A single signable candidate that signs successfully yields exactly one
gallery entry and one redaction. -/
theorem extract_single_signed (v : Valves) {sign : Str → Option Str} {u s' : Str}
    (hns : needs_signing v u = true) (hsg : sign u = some s') :
    extractGo v sign [] [u] [] [] [] = ([s'], [u]) := by
  by_cases h3 : v.MAX_IMAGES_PER_RESPONSE ≤ 1
  · simp [extractGo, hns, hsg, h3]
  · simp [extractGo, hns, hsg, h3]

/-- Flattening singleton chunks restores the string. -/
theorem flatten_singletons : ∀ l : Str, (l.map (fun c : Char => [c])).flatten = l := by
  intro l
  induction l with
  | nil => rfl
  | cons c r ih => simp [ih]

/-- A string of length at least two fits in no single-character chunk. -/
theorem not_infix_singleton {u : Str} (h2 : 2 ≤ u.length) (c : Char) : ¬ u <:+: [c] := by
  intro hin
  have := hin.sublist.length_le
  simp only [List.length_cons, List.length_nil] at this
  omega

/-- Prepending a character absent from `p` preserves absence of `p`. -/
theorem not_infix_cons_of {p : Str} {c : Char} {l : Str} (hp : p ≠ []) (hc : c ∉ p)
    (hl : ¬ p <:+: l) : ¬ p <:+: c :: l := by
  intro hin
  rcases List.infix_cons_iff.mp hin with hpre | hinf
  · obtain ⟨d, p', rfl⟩ : ∃ d p', p = d :: p' := by
      cases p with
      | nil => exact absurd rfl hp
      | cons d p' => exact ⟨d, p', rfl⟩
    rw [List.cons_prefix_cons] at hpre
    refine hc ?_
    rw [← hpre.1]
    exact List.mem_cons_self d p'
  · exact hl hinf

/-- Replacing the unique occurrence of a shaped URL by the placeholder leaves
zero occurrences of the URL and exactly one of the placeholder. -/
theorem replaceAll_counts {u t : Str} (hs : UrlShape u)
    (hc1 : countOcc u t = 1) (hph : countOcc placeholder t = 0) :
    countOcc u (replaceAll u placeholder t) = 0 ∧
      countOcc placeholder (replaceAll u placeholder t) = 1 := by
  constructor
  · exact (countOcc_eq_zero_iff hs.ne).mpr
      (replaceAll_no_needle hs.ne (by decide) (urlShape_hpu hs) hs.headNotPH)
  · obtain ⟨a, b, hte, hcb, hre⟩ := @replaceAll_single u placeholder hs.ne t hc1
    rw [hre]
    have hnf : ¬ placeholder <:+: t := (countOcc_eq_zero_iff (by decide)).mp hph
    have hpa : a <+: t := by
      rw [hte, List.append_assoc]
      exact ⟨u ++ b, rfl⟩
    have hsb : b <:+ t := by
      rw [hte]
      exact List.suffix_append (a ++ u) b
    have hna : ¬ placeholder <:+: a := fun hx => hnf (hx.trans hpa.isInfix)
    have hnb : ¬ placeholder <:+: b := fun hx => hnf (hx.trans hsb.isInfix)
    exact countOcc_sandwich (by decide) (by decide) hna hnb

/-- The Markdown image tag with the signed URL sits inside its gallery
entry. -/
theorem mdImage_occurs (idx : Nat) (w : Str) :
    ("![".data ++ urlDesc w ++ "](".data ++ w ++ [')']) <:+: imageEntry idx w := by
  refine ⟨"**".data ++ natChars idx ++ ". ".data ++ urlDesc w ++ "**\n\n".data,
    ['\n', '\n'], ?_⟩
  unfold imageEntry
  rw [show (")\n\n".data : Str) = [')'] ++ ['\n', '\n'] from rfl]
  simp [List.append_assoc]

/-- The Markdown image tag with the signed URL sits inside the one-entry
gallery. -/
theorem mdImage_in_single (w : Str) :
    ("![".data ++ urlDesc w ++ "](".data ++ w ++ [')']) <:+:
      format_images_as_markdown [w] := by
  have h1 := mdImage_occurs 1 w
  have h2 : format_images_as_markdown [w] = imagesHeader ++ (imageEntry 1 w ++ []) := rfl
  rw [h2, List.append_nil]
  exact h1.trans (List.suffix_append imagesHeader (imageEntry 1 w)).isInfix

set_option maxHeartbeats 1000000 in
/-- C1: in the streaming path, when the concatenated delta text contains
exactly one signable URL (one regex match, no embedded Markdown images, no
pre-existing placeholder text) and signing succeeds, the enhancer re-emits a
synthetic stream whose body carries zero occurrences of the original URL and
exactly one placeholder, appends the gallery as the final synthetic chunk
with the signed URL inside Markdown image syntax, and no emitted chunk
contains the original URL even partially.  External-capability hypotheses:
the URL has the regex shape, and neither the signed URL nor the notification
message contains the original URL or the placeholder. -/
theorem C1_streaming_redaction (v : Valves) (sign : Str → Option Str)
    (findM findE : Str → List Str) (roles : List (Option Str))
    (rawChunks deltas : List Str) (u s' : Str)
    (hkb : v.ENABLE_KB_IMAGE_DETECTION = true)
    (hM : findM deltas.flatten = [u]) (hE : findE deltas.flatten = [])
    (hns : needs_signing v u = true) (hsg : sign u = some s')
    (hc1 : countOcc u deltas.flatten = 1)
    (hph : countOcc placeholder deltas.flatten = 0)
    (hs : UrlShape u) (hlen : 2 ≤ u.length)
    (hsu : ¬ u <:+: s') (hmsg : ¬ u <:+: v.SYSTEM_NOTIFICATION_MESSAGE)
    (hphmsg : ¬ placeholder <:+: v.SYSTEM_NOTIFICATION_MESSAGE) :
    ∃ body, stream_with_enhancements v sign findM findE roles rawChunks deltas =
        body ++ [Chunk.synthetic (format_images_as_markdown [s'])] ∧
      countOcc u ((body.map chunkContent).flatten) = 0 ∧
      countOcc placeholder ((body.map chunkContent).flatten) = 1 ∧
      (∀ chk ∈ stream_with_enhancements v sign findM findE roles rawChunks deltas,
        ¬ u <:+: chunkContent chk) ∧
      ("![".data ++ urlDesc s' ++ "](".data ++ s' ++ [')']) <:+:
        format_images_as_markdown [s'] := by
  have hfne : deltas.flatten ≠ [] := by
    intro he
    rw [he, countOcc_nil] at hc1
    omega
  have her : extract_image_urls v sign findM findE deltas.flatten = ([s'], [u]) := by
    rw [extract_image_urls, if_neg hfne, hM, hE]
    exact extract_single_signed v hns hsg
  have hcnt := replaceAll_counts hs hc1 hph
  have hnotifc : ¬ u <:+: ('\n' :: ('\n' :: v.SYSTEM_NOTIFICATION_MESSAGE)) :=
    not_infix_cons_of hs.ne hs.nl (not_infix_cons_of hs.ne hs.nl hmsg)
  have hout : stream_with_enhancements v sign findM findE roles rawChunks deltas =
      ((replaceAll u placeholder deltas.flatten).map (fun c => Chunk.synthetic [c]) ++
        (if assistantCount roles = 0 ∧ v.ENABLE_SYSTEM_NOTIFICATION then
          [Chunk.synthetic ("\n\n".data ++ v.SYSTEM_NOTIFICATION_MESSAGE)] else [])) ++
      [Chunk.synthetic (format_images_as_markdown [s'])] := by
    simp only [stream_with_enhancements]
    rw [if_pos (⟨hkb, hfne⟩ : v.ENABLE_KB_IMAGE_DETECTION = true ∧ deltas.flatten ≠ [])]
    rw [her]
    rw [if_pos (by simp : ((([s'], [u]) : List Str × List Str)).2 ≠ [])]
    rw [if_pos (Or.inr (by simp : ((([s'], [u]) : List Str × List Str)).2 ≠ []))]
    rw [if_pos (by simp : ((([s'], [u]) : List Str × List Str)).1 ≠ [])]
    rw [show remove_urls_from_text deltas.flatten ((([s'], [u]) :
      List Str × List Str)).2 = replaceAll u placeholder deltas.flatten from rfl]
    by_cases hnot : assistantCount roles = 0 ∧ v.ENABLE_SYSTEM_NOTIFICATION
    · rw [if_pos hnot, if_pos hnot]
    · rw [if_neg hnot, if_neg hnot]
      simp
  refine ⟨(replaceAll u placeholder deltas.flatten).map (fun c => Chunk.synthetic [c]) ++
      (if assistantCount roles = 0 ∧ v.ENABLE_SYSTEM_NOTIFICATION then
        [Chunk.synthetic ("\n\n".data ++ v.SYSTEM_NOTIFICATION_MESSAGE)] else []),
    hout, ?_, ?_, ?_, mdImage_in_single s'⟩
  · by_cases hnot : assistantCount roles = 0 ∧ v.ENABLE_SYSTEM_NOTIFICATION
    · rw [if_pos hnot]
      rw [List.map_append, List.flatten_append, List.map_map]
      rw [show (chunkContent ∘ fun c : Char => Chunk.synthetic [c]) =
        (fun c : Char => [c]) from rfl]
      rw [flatten_singletons]
      rw [show (([Chunk.synthetic ("\n\n".data ++ v.SYSTEM_NOTIFICATION_MESSAGE)].map
        chunkContent).flatten : Str) =
        '\n' :: ('\n' :: v.SYSTEM_NOTIFICATION_MESSAGE) from by simp [chunkContent]]
      rw [countOcc_append_block hs.ne hs.nl hnotifc]
      exact hcnt.1
    · rw [if_neg hnot]
      rw [List.append_nil, List.map_map]
      rw [show (chunkContent ∘ fun c : Char => Chunk.synthetic [c]) =
        (fun c : Char => [c]) from rfl]
      rw [flatten_singletons]
      exact hcnt.1
  · have hphnc : ¬ placeholder <:+: ('\n' :: ('\n' :: v.SYSTEM_NOTIFICATION_MESSAGE)) :=
      not_infix_cons_of (by decide) (by decide)
        (not_infix_cons_of (by decide) (by decide) hphmsg)
    by_cases hnot : assistantCount roles = 0 ∧ v.ENABLE_SYSTEM_NOTIFICATION
    · rw [if_pos hnot]
      rw [List.map_append, List.flatten_append, List.map_map]
      rw [show (chunkContent ∘ fun c : Char => Chunk.synthetic [c]) =
        (fun c : Char => [c]) from rfl]
      rw [flatten_singletons]
      rw [show (([Chunk.synthetic ("\n\n".data ++ v.SYSTEM_NOTIFICATION_MESSAGE)].map
        chunkContent).flatten : Str) =
        '\n' :: ('\n' :: v.SYSTEM_NOTIFICATION_MESSAGE) from by simp [chunkContent]]
      rw [countOcc_append_block (by decide) (by decide) hphnc]
      exact hcnt.2
    · rw [if_neg hnot]
      rw [List.append_nil, List.map_map]
      rw [show (chunkContent ∘ fun c : Char => Chunk.synthetic [c]) =
        (fun c : Char => [c]) from rfl]
      rw [flatten_singletons]
      exact hcnt.2
  · intro chk hm
    rw [hout] at hm
    rcases List.mem_append.mp hm with hm1 | hm2
    · rcases List.mem_append.mp hm1 with hm3 | hm4
      · obtain ⟨c, -, rfl⟩ := List.mem_map.mp hm3
        exact not_infix_singleton hlen c
      · by_cases hnot : assistantCount roles = 0 ∧ v.ENABLE_SYSTEM_NOTIFICATION
        · rw [if_pos hnot] at hm4
          have : chk = Chunk.synthetic ("\n\n".data ++ v.SYSTEM_NOTIFICATION_MESSAGE) := by
            simpa using hm4
          rw [this]
          exact hnotifc
        · rw [if_neg hnot] at hm4
          exact absurd hm4 (List.not_mem_nil chk)
    · have : chk = Chunk.synthetic (format_images_as_markdown [s']) := by
        simpa using hm2
      rw [this]
      refine markdown_no_u hs ?_
      intro w hw
      rw [List.mem_singleton] at hw
      rw [hw]
      exact hsu

/-- The upstream deltas of the C1 witness: the private URL is split across
chunk boundaries. -/
def deltasW : List Str := ["Look at ".data, uDup, " now".data]

set_option maxRecDepth 16000 in
/-- Witness for C1 at concrete inputs. -/
theorem C1_witness :
    ∃ body, stream_with_enhancements vSigned (fun w => if w = uDup then some sFresh else none)
        (fun _ => [uDup]) (fun _ => []) [] ["data: x".data] deltasW =
        body ++ [Chunk.synthetic (format_images_as_markdown [sFresh])] ∧
      countOcc uDup ((body.map chunkContent).flatten) = 0 ∧
      countOcc placeholder ((body.map chunkContent).flatten) = 1 ∧
      (∀ chk ∈ stream_with_enhancements vSigned
          (fun w => if w = uDup then some sFresh else none)
          (fun _ => [uDup]) (fun _ => []) [] ["data: x".data] deltasW,
        ¬ uDup <:+: chunkContent chk) ∧
      ("![".data ++ urlDesc sFresh ++ "](".data ++ sFresh ++ [')']) <:+:
        format_images_as_markdown [sFresh] :=
  C1_streaming_redaction vSigned (fun w => if w = uDup then some sFresh else none)
    (fun _ => [uDup]) (fun _ => []) [] ["data: x".data] deltasW uDup sFresh
    (by decide) rfl rfl (by decide) (by decide) (by decide) (by decide)
    (by
      refine ⟨by decide, by decide, by decide, by decide, by decide, by decide, by decide,
        by decide, by decide, ?_, by decide⟩
      intro c hc
      rw [show uDup.head? = some 'h' from rfl] at hc
      cases hc
      decide)
    (by decide) (by decide) (by decide) (by decide)

end Pipe
